import Mathlib

/-!
# hwinfo: the byte-quantity codec and the line extractor

A shallow embedding of `byteunit/byteunit.go` (`Size.String`, `Parse`) and of
`hwutils.go` (`reformat`, `getKeyValue`).

Go strings are modelled as the list of their characters (`List Char`), which is
what a valid UTF-8 string is; every index the code computes is the position of
an ASCII character, so byte slicing and character slicing agree.
-/

/-! ## Go standard library functions used by the code -/

namespace strings

/-- White space as `unicode.IsSpace` defines it (used by `strings.TrimSpace`
and `strings.Fields`). -/
def isSpace (c : Char) : Bool :=
  let n := c.toNat
  (9 ≤ n && n ≤ 13) || n == 32 || n == 0x85 || n == 0xA0 || n == 0x1680 ||
  (0x2000 ≤ n && n ≤ 0x200a) || n == 0x2028 || n == 0x2029 || n == 0x202f ||
  n == 0x205f || n == 0x3000

/-- The function `strings.TrimSpace`: leading and trailing white space removed. -/
def TrimSpace (s : List Char) : List Char :=
  ((s.dropWhile isSpace).reverse.dropWhile isSpace).reverse

/-- The function `strings.Index(s, c)` for a one-character needle `c`; `none` is Go's `-1`. -/
def Index (s : List Char) (c : Char) : Option Nat :=
  match s with
  | [] => none
  | x :: xs => if x = c then some 0 else (Index xs c).map (· + 1)

/-- The scan of `strings.Fields`: `cur` is the field being read (reversed). -/
def fieldsAux (cur : List Char) : List Char → List (List Char)
  | [] => if cur = [] then [] else [cur.reverse]
  | c :: cs =>
    if isSpace c then
      (if cur = [] then fieldsAux [] cs else cur.reverse :: fieldsAux [] cs)
    else fieldsAux (c :: cur) cs

/-- The function `strings.Fields`: the maximal runs of non-space characters. -/
def Fields (s : List Char) : List (List Char) := fieldsAux [] s

/-- The function `strings.Join(parts, sep)`. -/
def Join : List (List Char) → List Char → List Char
  | [], _ => []
  | [w], _ => w
  | w :: v :: ws, sep => w ++ sep ++ Join (v :: ws) sep

/-- The call `strings.SplitN(s, c, 2)` for a one-character separator `c`: the
text before and after the first `c`, or `s` alone when `c` does not occur. -/
def SplitN2 (s : List Char) (c : Char) : List (List Char) :=
  match Index s c with
  | none => [s]
  | some i => [s.take i, s.drop (i + 1)]

end strings

namespace strconv

/-- An ASCII decimal digit. -/
def isDigit (c : Char) : Bool := 48 ≤ c.toNat && c.toNat ≤ 57

/-- The value of a string of decimal digits. -/
def digitsValue (ds : List Char) : Nat :=
  ds.foldl (fun acc c => acc * 10 + (c.toNat - 48)) 0

/-- The loop that writes `n` in decimal, most significant digit first. -/
def formatNatAux : Nat → Nat → List Char → List Char
  | 0, _, acc => acc
  | fuel + 1, n, acc =>
    let acc1 := Char.ofNat (48 + n % 10) :: acc
    if n / 10 = 0 then acc1 else formatNatAux fuel (n / 10) acc1

/-- Decimal text of a natural number (`%d`). -/
def formatNat (n : Nat) : List Char := formatNatAux (n + 1) n []

/-- Decimal text of an integer (`%d`), with a minus sign when negative. -/
def formatInt (z : Int) : List Char :=
  if z < 0 then '-' :: formatNat z.natAbs else formatNat z.natAbs

/-- A non-negative `float64`: `finite m e` is the number `m * 2^e`, `inf` is `+Inf`. -/
inductive F64 where
  | finite (mant : Nat) (exp : Int)
  | inf
  deriving DecidableEq, Repr

/-- The loop of `log2`. -/
def log2Aux : Nat → Nat → Nat
  | 0, _ => 0
  | fuel + 1, n => if n < 2 then 0 else log2Aux fuel (n / 2) + 1

/-- The position of the highest set bit: `2^(log2 n) ≤ n < 2^(log2 n + 1)` for `0 < n`. -/
def log2 (n : Nat) : Nat := log2Aux n n

/-- The integer part of `m * 2^e`. -/
def floorPow2 (m : Nat) (e : Int) : Nat := m * 2 ^ e.toNat / 2 ^ (-e).toNat

/-- Whether `2^c ≤ N / D`. -/
def pow2Le (N D : Nat) (c : Int) : Bool := decide (D * 2 ^ c.toNat ≤ N * 2 ^ (-c).toNat)

/-- The `float64` nearest to `N / 10^d` (IEEE 754 binary64, round to nearest,
ties to even), which is what `strconv.ParseFloat(_, 64)` returns for a decimal
token; `none` is the range error it reports when the result would be infinite. -/
def roundDecimal (N d : Nat) : Option F64 :=
  if N = 0 then some (F64.finite 0 0) else
  let D := 10 ^ d
  let c : Int := (log2 N : Int) - (log2 D : Int)
  let e : Int := if pow2Le N D c then c else c - 1
  let q : Int := max (e - 52) (-1074)
  let A := N * 2 ^ (-q).toNat
  let B := D * 2 ^ q.toNat
  let m0 := A / B
  let r := A % B
  let m := if B < 2 * r ∨ (2 * r = B ∧ m0 % 2 = 1) then m0 + 1 else m0
  if 1024 ≤ log2 (floorPow2 m q) then none else some (F64.finite m q)

/-- The function `strconv.ParseFloat(tok, 64)` on the tokens the pattern `re`
can capture: digits with an optional fraction. `none` is a returned error
(a syntax error for a token without any digit, or a range error). -/
def ParseFloat (tok : List Char) : Option F64 :=
  let ip := tok.takeWhile isDigit
  match tok.dropWhile isDigit with
  | [] => if ip = [] then none else roundDecimal (digitsValue ip) 0
  | c :: fr =>
    if c = '.' ∧ fr.all isDigit ∧ ¬ (ip = [] ∧ fr = []) then
      roundDecimal (digitsValue (ip ++ fr)) fr.length
    else none

/-- The function `strconv.Atoi` with a 64-bit `int`: an optional sign and decimal
digits; `none` is a returned error (no digit, another character, out of range). -/
def Atoi (s : List Char) : Option Int :=
  let signed : Bool × List Char :=
    match s with
    | '-' :: r => (true, r)
    | '+' :: r => (false, r)
    | _ => (false, s)
  if signed.2 = [] ∨ signed.2.all isDigit = false then none
  else if signed.1 then
    (if digitsValue signed.2 ≤ 2 ^ 63 then some (-(digitsValue signed.2 : Int)) else none)
  else (if digitsValue signed.2 < 2 ^ 63 then some (digitsValue signed.2 : Int) else none)

end strconv

/-! ## byteunit/byteunit.go -/

namespace byteunit

open strings strconv

/-- A byte count; the source type is `int64`. -/
abbrev Size := Int

/-- The unit names, indexed by unit. -/
def units : List (List Char) :=
  ["byte".toList, "kB".toList, "MB".toList, "GB".toList, "TB".toList]

/-- The loop of `Size.String` over `i = n, n-1, ..., 1`. -/
def Size.stringLoop (s : Int) : Nat → Option (List Char)
  | 0 => none
  | i + 1 =>
    let q : Int := 2 ^ (10 * (i + 1))
    if Int.tmod s q = 0 then
      some (formatInt (Int.tdiv s q) ++ ' ' :: units.getD (i + 1) [])
    else Size.stringLoop s i

/-- The method `Size.String`. -/
def Size.String (s : Size) : List Char :=
  if s = 0 then "0".toList
  else match Size.stringLoop s (units.length - 1) with
    | some r => r
    | none => if s = 1 then "1 byte".toList else formatInt s ++ " bytes".toList

/-- Outcome of `Parse`: a size with a nil error, a returned error, a panic, or a
size that Go leaves implementation-dependent (a `float64` outside `int64`). -/
inductive ParseResult where
  | size (n : Int)
  | error (msg : List Char)
  | panicked
  | unspecified
  deriving DecidableEq, Repr

/-- A letter of the class `[A-Za-z]`. -/
def isLetter (c : Char) : Bool :=
  (65 ≤ c.toNat && c.toNat ≤ 90) || (97 ≤ c.toNat && c.toNat ≤ 122)

/-- The pattern `^([0-9]*(?:[.][0-9]+)?) *([A-Za-z]+)$`: the two captured groups
of the match, `none` when the text does not match. The classes of the three
parts are disjoint, so the match is the greedy one. -/
def re (s : List Char) : Option (List Char × List Char) :=
  let ip := s.takeWhile isDigit
  let r1 := s.dropWhile isDigit
  let numRest : List Char × List Char :=
    match r1 with
    | c :: r =>
      if c = '.' ∧ r.takeWhile isDigit ≠ [] then
        (ip ++ c :: r.takeWhile isDigit, r.dropWhile isDigit)
      else (ip, r1)
    | [] => (ip, r1)
  let r3 := numRest.2.dropWhile (· = ' ')
  if r3 ≠ [] ∧ r3.all isLetter then some (numRest.1, r3) else none

/-- The conversion `Size(value)` of a `float64` to `int64`: truncation, defined
by Go only when the result fits. -/
def toSize : F64 → ParseResult
  | F64.finite m e =>
    if floorPow2 m e < 2 ^ 63 then ParseResult.size (floorPow2 m e)
    else ParseResult.unspecified
  | F64.inf => ParseResult.unspecified

/-- The product `value *= 1<<p` on `float64`: exact, or `+Inf` on overflow. -/
def scale (v : F64) (p : Nat) : F64 :=
  match v with
  | F64.finite m e =>
    if 1024 ≤ log2 (floorPow2 m (e + p)) then F64.inf else F64.finite m (e + p)
  | F64.inf => F64.inf

/-- The `switch` of `Parse` on the unit token: the scaled value, or `none` in
the `default` case. -/
def applyUnit (value : F64) (unit : List Char) : Option F64 :=
  if unit = "byte".toList ∨ unit = "bytes".toList ∨ unit = "byte(s)".toList then some value
  else if unit = "Kb".toList ∨ unit = "kb".toList then some (scale value 10)
  else if unit = "MB".toList ∨ unit = "mb".toList then some (scale value 20)
  else if unit = "GB".toList ∨ unit = "gb".toList then some (scale value 30)
  else if unit = "TB".toList ∨ unit = "tb".toList then some (scale value 40)
  else none

/-- The function `Parse`. -/
def Parse (str : List Char) : ParseResult :=
  let str := TrimSpace str
  if str = "0".toList then ParseResult.size 0
  else match re str with
    | none => ParseResult.error ("unable to parse string: ".toList ++ str)
    | some (num, unit) =>
      match ParseFloat num with
      | none => ParseResult.panicked
      | some value =>
        match applyUnit value unit with
        | some v => toSize v
        | none => ParseResult.error ("invalid byteunit: ".toList ++ str)

/-- The conversion `float64(s)` of an `int64`, as the rational number it is:
the nearest `float64`, exact below `2^53`. -/
def float64OfInt (s : Int) : ℚ :=
  match roundDecimal s.natAbs 0 with
  | some (F64.finite m e) => (if s < 0 then -1 else 1) * ((m : ℚ) * 2 ^ e)
  | _ => 0

/-- The method `Size.Format`: the divisor is `q := 2 << uint(10 * unit)`, the
quotient of the two `float64` is exact (the divisor is a power of two), and its
rendering by `%.4g` is the parameter `fmtG`. `none` is the index fault of
`units[unit]` for a unit outside the table. -/
def Size.Format (fmtG : ℚ → List Char) (s : Size) (unit : Nat) : Option (List Char) :=
  let q : Nat := 2 * 2 ^ (10 * unit)
  if unit < units.length then
    some (fmtG (float64OfInt s / (q : ℚ)) ++ ' ' :: units.getD unit [])
  else none

/-- The reference definition of the canonical display, in the words of the
specification: `k` is the index of the unit chosen. -/
def Size.StringRef (q : Int) (k : Nat) : List Char :=
  if q = 0 then "0".toList
  else if 1 ≤ k then formatInt (q / 1024 ^ k) ++ " ".toList ++ units.getD k []
  else if q = 1 then "1 byte".toList
  else formatInt q ++ " bytes".toList

/-- A number token: the digits `ip`, followed by a point and the digits `fr`
when `fr` is not empty. Its value is `digitsValue (ip ++ fr) / 10 ^ fr.length`. -/
def numberToken (ip fr : List Char) : List Char :=
  if fr = [] then ip else ip ++ '.' :: fr

/-- The power of 1024 that the `switch` of `Parse` gives a unit token; `none`
for a token of the `default` case. -/
def unitExponent (unit : List Char) : Option Nat :=
  if unit = "byte".toList ∨ unit = "bytes".toList ∨ unit = "byte(s)".toList then some 0
  else if unit = "Kb".toList ∨ unit = "kb".toList then some 1
  else if unit = "MB".toList ∨ unit = "mb".toList then some 2
  else if unit = "GB".toList ∨ unit = "gb".toList then some 3
  else if unit = "TB".toList ∨ unit = "tb".toList then some 4
  else none

/-- The natural number `n` is a `float64` value: it has at most 53 significant
bits. Every number below `2^53` is one (`t = 0`). -/
def isFloat64 (n : Nat) : Prop := ∃ m t : Nat, n = m * 2 ^ t ∧ m < 2 ^ 53

/-- The unit spellings that the `switch` of `Parse` lists in both cases of a
unit name (`kb`, `MB`/`mb`, `GB`/`gb`, `TB`/`tb`) and the byte unit spelled with
letters, each with its power of 1024. -/
def acceptedSpellings : List (List Char × Nat) :=
  [("byte".toList, 0), ("bytes".toList, 0), ("kb".toList, 1), ("MB".toList, 2),
   ("mb".toList, 2), ("GB".toList, 3), ("gb".toList, 3), ("TB".toList, 4), ("tb".toList, 4)]

end byteunit

/-! ## hwutils.go -/

namespace hwinfo

open strings

/-- The loop of `reformat`: `n` passes are left. A pass needs a `(`, else the
loop breaks; when there is also a `)`, the text from the first `(` to the first
`)` is cut out as `str[:i] + str[j+1:]` and the result trimmed. -/
def reformatLoop : Nat → List Char → List Char
  | 0, str => str
  | n + 1, str =>
    match Index str '(' with
    | some i =>
      match Index str ')' with
      | some j => reformatLoop n (TrimSpace (str.take i ++ str.drop (j + 1)))
      | none => reformatLoop n str
    | none => str

/-- The function `reformat`. -/
def reformat (str : List Char) : List Char :=
  Join (Fields (reformatLoop 100 str)) " ".toList

set_option linter.unusedVariables false in
/-- The function `getKeyValue`; the source splits at `":"` whatever `sep` is. -/
def getKeyValue (line sep : List Char) : List Char × List Char :=
  let line := TrimSpace line
  let kv := (SplitN2 line ':').map reformat
  match kv with
  | [k, v] => (TrimSpace k, TrimSpace v)
  | _ => ([], [])

/-- Whether every `)` of the text closes a parenthetical, reading from the left
with `inside` telling whether a `(` is open: a parenthetical runs from a `(` to
the next `)`. It is `false` when a `)` stands outside a parenthetical. -/
def closesAll : Bool → List Char → Bool
  | _, [] => true
  | false, c :: cs =>
    if c = ')' then false else if c = '(' then closesAll true cs else closesAll false cs
  | true, c :: cs => if c = ')' then closesAll false cs else closesAll true cs

/-- Whether every parenthesis of the text belongs to a balanced pair that is
not nested: no `)` outside a pair, no `(` inside one, and the last pair closed. -/
def flatParens : Bool → List Char → Bool
  | inside, [] => !inside
  | false, c :: cs =>
    if c = ')' then false else if c = '(' then flatParens true cs else flatParens false cs
  | true, c :: cs =>
    if c = '(' then false else if c = ')' then flatParens false cs else flatParens true cs

/-- The text with its parenthetical substrings removed, in the words of the
specification: what stands outside the pairs `( ... )`. -/
def stripParens : Bool → List Char → List Char
  | _, [] => []
  | false, c :: cs => if c = '(' then stripParens true cs else c :: stripParens false cs
  | true, c :: cs => if c = ')' then stripParens false cs else stripParens true cs

/-- Every run of white space made one space: a white space character is
dropped when another follows it, and written as a space otherwise. -/
def collapseSpaces : List Char → List Char
  | [] => []
  | c :: cs =>
    if isSpace c then
      match cs with
      | [] => [' ']
      | d :: _ => if isSpace d then collapseSpaces cs else ' ' :: collapseSpaces cs
    else c :: collapseSpaces cs

/-- The whitespace normal form in the words of the specification: every run of
white space collapsed to one space, leading and trailing white space removed. -/
def normalizeSpaces (s : List Char) : List Char := TrimSpace (collapseSpaces s)

/-- A text is whitespace-normalized: no white space at either end, no white
space character other than the space, and no two spaces in a row. -/
def WhitespaceNormalized (s : List Char) : Prop :=
  (∀ c ∈ s.head?, isSpace c = false) ∧ (∀ c ∈ s.getLast?, isSpace c = false) ∧
  (∀ c ∈ s, isSpace c = true → c = ' ') ∧ ¬ [' ', ' '] <:+: s

/-- The reading of the specification, strip then split: the parenthetical
substrings removed from the whole line and the spaces collapsed first (by
`reformat`), then the split at the first `:` and both parts trimmed. -/
def stripThenSplit (line : List Char) : List Char × List Char :=
  match SplitN2 (reformat line) ':' with
  | [k, v] => (TrimSpace k, TrimSpace v)
  | _ => ([], [])

/-! ## hwinfo.go -/

/-- The function `strToInt` of hwutils.go. -/
def strToInt (str : List Char) : Option Int := strconv.Atoi (TrimSpace str)

/-- How a function of hwinfo.go ends: a result, a returned error (with its
message, or the fixed text before the `%v` of its message), a panic, or a result
built on a size that Go leaves implementation-dependent. -/
inductive Outcome (α : Type) where
  | ok (a : α)
  | error (msg : List Char)
  | panicked
  | unspecified
  deriving DecidableEq, Repr

/-- A `for _, l := range lines` loop whose body `step` may return early. -/
def forLines {σ : Type} (step : σ → List Char → Outcome σ) : σ → List (List Char) → Outcome σ
  | st, [] => Outcome.ok st
  | st, l :: ls =>
    match step st l with
    | Outcome.ok st1 => forLines step st1 ls
    | Outcome.error msg => Outcome.error msg
    | Outcome.panicked => Outcome.panicked
    | Outcome.unspecified => Outcome.unspecified

/-- The field `FreqGHz`, a `float64`, kept as the expression that computes it:
zero, `strToFloat(text) / 1000`, or `float64(khz) / 1000000`. -/
inductive GHz where
  | zero
  | ofMHz (text : List Char)
  | ofkHz (khz : Int)
  deriving DecidableEq, Repr

/-- The type `CPUInfo`. -/
structure CPUInfo where
  Id : Int
  Model : List Char
  FreqGHz : GHz
  PhysicalId : Int
  PhysicalCores : Int
  LogicalCores : Int
  deriving DecidableEq, Repr

/-- The zero value `CPUInfo{}`. -/
def CPUInfo.empty : CPUInfo := ⟨0, [], GHz.zero, 0, 0, 0⟩

/-- The cases of the `switch key` of `ListCPUInfo` other than `"processor"`.
The file system and `strconv.ParseFloat` are parameters: `readMaxFreq id` is the
content of `cpuinfo_max_freq` of cpu `id` (`none` when the read fails) and
`floatOK text` tells whether `strToFloat` accepts the text. -/
def cpuField (readMaxFreq : Int → Option (List Char)) (floatOK : List Char → Bool)
    (cpu : CPUInfo) (key val : List Char) : Outcome CPUInfo :=
  if key = "cpu MHz".toList then
    match readMaxFreq cpu.Id with
    | none =>
      if floatOK (TrimSpace val) then
        Outcome.ok { cpu with FreqGHz := GHz.ofMHz (TrimSpace val) }
      else Outcome.error "error reading processor frequency".toList
    | some content =>
      match strToInt content with
      | none => Outcome.error "error reading processor frequency (sysfs)".toList
      | some khz => Outcome.ok { cpu with FreqGHz := GHz.ofkHz khz }
  else if key = "model name".toList then Outcome.ok { cpu with Model := val }
  else if key = "physical id".toList then
    match strToInt val with
    | none => Outcome.error "error reading processor id".toList
    | some id => Outcome.ok { cpu with PhysicalId := id }
  else if key = "cpu cores".toList then
    match strToInt val with
    | none => Outcome.error "error reading processor cores".toList
    | some cores => Outcome.ok { cpu with PhysicalCores := cores }
  else if key = "siblings".toList then
    match strToInt val with
    | none => Outcome.error "error reading processor siblings".toList
    | some siblings => Outcome.ok { cpu with LogicalCores := siblings }
  else Outcome.ok cpu

/-- The state of the first loop of `ListCPUInfo`: `cpus`, `cpu`, `currentProcessor`. -/
abbrev CPUState := List CPUInfo × CPUInfo × Int

/-- The body of the first loop of `ListCPUInfo`. -/
def cpuStep (readMaxFreq : Int → Option (List Char)) (floatOK : List Char → Bool)
    (st : CPUState) (l : List Char) : Outcome CPUState :=
  let kv := getKeyValue l ":".toList
  if kv.1 = "processor".toList then
    match strToInt kv.2 with
    | none => Outcome.error "processor number".toList
    | some n =>
      if n ≠ st.2.2 then Outcome.ok (st.1 ++ [st.2.1], CPUInfo.empty, n)
      else Outcome.ok st
  else
    match cpuField readMaxFreq floatOK st.2.1 kv.1 kv.2 with
    | Outcome.ok cpu => Outcome.ok (st.1, cpu, st.2.2)
    | Outcome.error msg => Outcome.error msg
    | Outcome.panicked => Outcome.panicked
    | Outcome.unspecified => Outcome.unspecified

/-- The per-processor pass of `ListCPUInfo`: the first loop over the lines of
`/proc/cpuinfo`, and the `cpus = append(cpus, cpu)` that follows it. -/
def perProcessor (readMaxFreq : Int → Option (List Char)) (floatOK : List Char → Bool)
    (lines : List (List Char)) : Outcome (List CPUInfo) :=
  match forLines (cpuStep readMaxFreq floatOK) ([], CPUInfo.empty, 0) lines with
  | Outcome.ok st => Outcome.ok (st.1 ++ [st.2.1])
  | Outcome.error msg => Outcome.error msg
  | Outcome.panicked => Outcome.panicked
  | Outcome.unspecified => Outcome.unspecified

/-- The body of the merge loop of `ListCPUInfo`; the state is `phycpus`, `lastPhyId`. -/
def mergeStep (st : List CPUInfo × Int) (c : CPUInfo) : List CPUInfo × Int :=
  if c.PhysicalId ≠ st.2 then (st.1 ++ [c], c.PhysicalId) else st

/-- The merge pass of `ListCPUInfo`, with `lastPhyId := -1` at the start. -/
def mergePass (cpus : List CPUInfo) : List CPUInfo :=
  (cpus.foldl mergeStep ([], -1)).1

/-- The first record of every maximal run of consecutive records with equal
`PhysicalId`, in the words of the specification: the first record, and each
record whose `PhysicalId` differs from that of the record before it. -/
def runFirsts : List CPUInfo → List CPUInfo
  | [] => []
  | c :: cs =>
    c :: (List.zip ((c :: cs).map (fun x => x.PhysicalId)) cs).filterMap
      (fun p => if p.1 = p.2.PhysicalId then none else some p.2)

/-- The function `ListCPUInfo` on the lines read from `/proc/cpuinfo`. -/
def ListCPUInfo (readMaxFreq : Int → Option (List Char)) (floatOK : List Char → Bool)
    (lines : List (List Char)) : Outcome (List CPUInfo) :=
  match perProcessor readMaxFreq floatOK lines with
  | Outcome.ok cpus => Outcome.ok (mergePass cpus)
  | e => e

/-- The type `RAMModule`; `Typ` is the source field `Type`. -/
structure RAMModule where
  Size : Int
  Slot : List Char
  Class : List Char
  Typ : List Char
  FreqMHz : Int
  deriving DecidableEq, Repr

/-- The zero value `RAMModule{}`. -/
def RAMModule.empty : RAMModule := ⟨0, [], [], [], 0⟩

/-- The closure `add` of `ReadRAMInfo`: a nil module and the modules of the
workaround (slot `SYSTEM ROM`, type `Flash`) are not appended. -/
def add (modules : List RAMModule) (m : Option RAMModule) : List RAMModule :=
  match m with
  | none => modules
  | some m =>
    if m.Slot = "SYSTEM ROM".toList ∨ m.Typ = "Flash".toList then modules
    else modules ++ [m]

/-- A write `module.f = v` through the pointer `module`: a panic when it is nil. -/
def setField (module : Option RAMModule) (f : RAMModule → RAMModule) :
    Outcome (Option RAMModule) :=
  match module with
  | none => Outcome.panicked
  | some m => Outcome.ok (some (f m))

/-- The `switch key` of the module loop of `ReadRAMInfo`; `Sscan val` is the
integer that `fmt.Sscan(val, &module.FreqMHz)` stores, `none` when it stores none. -/
def ramField (Sscan : List Char → Option Int) (module : Option RAMModule)
    (key val : List Char) : Outcome (Option RAMModule) :=
  if key = "Size".toList then
    if val = "No Module Installed".toList then setField module (fun m => { m with Size := 0 })
    else
      match byteunit.Parse val with
      | byteunit.ParseResult.error msg => Outcome.error msg
      | byteunit.ParseResult.panicked => Outcome.panicked
      | byteunit.ParseResult.unspecified =>
        (match module with
         | none => Outcome.panicked
         | some _ => Outcome.unspecified)
      | byteunit.ParseResult.size n => setField module (fun m => { m with Size := n })
  else if key = "Type".toList then setField module (fun m => { m with Class := val })
  else if key = "Form Factor".toList then setField module (fun m => { m with Typ := val })
  else if key = "Speed".toList then
    match module with
    | none => Outcome.panicked
    | some m =>
      if m.Size ≠ 0 then
        (match Sscan val with
         | some n => Outcome.ok (some { m with FreqMHz := n })
         | none => Outcome.ok (some m))
      else Outcome.ok (some m)
  else if key = "Locator".toList then setField module (fun m => { m with Slot := val })
  else Outcome.ok module

/-- The state of the module loop of `ReadRAMInfo`: `ram.Modules`, `module`. -/
abbrev RAMState := List RAMModule × Option RAMModule

/-- The body of the module loop of `ReadRAMInfo`. -/
def ramStep (Sscan : List Char → Option Int) (st : RAMState) (l : List Char) :
    Outcome RAMState :=
  let st1 : RAMState :=
    if l = "Memory Device".toList then (add st.1 st.2, some RAMModule.empty) else st
  let kv := getKeyValue l ":".toList
  match ramField Sscan st1.2 kv.1 kv.2 with
  | Outcome.ok module => Outcome.ok (st1.1, module)
  | Outcome.error msg => Outcome.error msg
  | Outcome.panicked => Outcome.panicked
  | Outcome.unspecified => Outcome.unspecified

/-- The module loop of `ReadRAMInfo` on the lines of the `dmidecode` output,
with the `add(module)` that follows it: the modules returned. -/
def moduleLoop (Sscan : List Char → Option Int) (lines : List (List Char)) :
    Outcome (List RAMModule) :=
  match forLines (ramStep Sscan) ([], none) lines with
  | Outcome.ok st => Outcome.ok (add st.1 st.2)
  | Outcome.error msg => Outcome.error msg
  | Outcome.panicked => Outcome.panicked
  | Outcome.unspecified => Outcome.unspecified

/-! ## hwutils.go, with the bound on the length of a string

A Go string has a length of type `int` and lives in memory, so a machine holds
strings of at most `maxLen` bytes, with `maxLen < 2 ^ 63`. Building a longer one
ends the program. The definitions below are `reformat` and `getKeyValue` again
with that bound: `none` is the program ending at an allocation. -/

/-- The loop of `reformat` with strings of at most `maxLen` bytes: `none` when
the concatenation `str[:i] + str[j+1:]` is longer than `maxLen`. The other
operations of the loop are slices of `str`. -/
def reformatLoopMem (maxLen : Nat) : Nat → List Char → Option (List Char)
  | 0, str => some str
  | n + 1, str =>
    match Index str '(' with
    | some i =>
      match Index str ')' with
      | some j =>
        if (str.take i ++ str.drop (j + 1)).length ≤ maxLen then
          reformatLoopMem maxLen n (TrimSpace (str.take i ++ str.drop (j + 1)))
        else none
      | none => reformatLoopMem maxLen n str
    | none => some str

/-- The function `reformat` with strings of at most `maxLen` bytes; the text
that `strings.Join(strings.Fields(str), " ")` builds is no longer than `str`. -/
def reformatMem (maxLen : Nat) (str : List Char) : Option (List Char) :=
  match reformatLoopMem maxLen 100 str with
  | some r => some (Join (Fields r) " ".toList)
  | none => none

/-- The loop `for j := 0; j < len(kv); j++ { kv[j] = reformat(kv[j]) }` of
`getKeyValue` with strings of at most `maxLen` bytes. -/
def reformatAll (maxLen : Nat) : List (List Char) → Option (List (List Char))
  | [] => some []
  | p :: ps =>
    match reformatMem maxLen p with
    | none => none
    | some q =>
      match reformatAll maxLen ps with
      | none => none
      | some qs => some (q :: qs)

set_option linter.unusedVariables false in
/-- The function `getKeyValue` with strings of at most `maxLen` bytes: the parts
are reformatted before the test `len(kv) != 2`. -/
def getKeyValueMem (maxLen : Nat) (line sep : List Char) :
    Option (List Char × List Char) :=
  let line := TrimSpace line
  match reformatAll maxLen (SplitN2 line ':') with
  | none => none
  | some kv =>
    match kv with
    | [k, v] => some (TrimSpace k, TrimSpace v)
    | _ => some ([], [])

end hwinfo

/-! ## Theorems: byteunit -/

namespace byteunit

open strings strconv

theorem Size.stringLoop_step (s : Int) (i : Nat) :
    Size.stringLoop s (i + 1) =
      if Int.tmod s (2 ^ (10 * (i + 1))) = 0 then
        some (formatInt (Int.tdiv s (2 ^ (10 * (i + 1)))) ++ ' ' :: units.getD (i + 1) [])
      else Size.stringLoop s i := rfl

theorem tmod_pow_eq_zero_iff (s : Int) (i : Nat) :
    Int.tmod s (2 ^ (10 * i)) = 0 ↔ (1024 : Int) ^ i ∣ s := by
  rw [← Int.dvd_iff_tmod_eq_zero, pow_mul]
  norm_num

theorem tdiv_pow_eq (s : Int) (hs : 0 ≤ s) (i : Nat) :
    Int.tdiv s (2 ^ (10 * i)) = s / 1024 ^ i := by
  rw [Int.tdiv_eq_ediv hs (by positivity), pow_mul]
  norm_num

/-- The display chosen by `Size.String`, given the largest unit that divides. -/
theorem Size.String_of_largest (q : Int) (k : Nat) (hq : 0 ≤ q) (hk : k ≤ 4)
    (hdvd : (1024 : Int) ^ k ∣ q)
    (hmax : ∀ j : Nat, j ≤ 4 → (1024 : Int) ^ j ∣ q → j ≤ k) :
    Size.String q = Size.StringRef q k := by
  unfold Size.String Size.StringRef
  by_cases h0 : q = 0
  · simp [h0]
  · simp only [h0, if_false]
    have hlen : units.length - 1 = 4 := rfl
    rw [hlen]
    have h4 := hmax 4 (by norm_num)
    have h3 := hmax 3 (by norm_num)
    have h2 := hmax 2 (by norm_num)
    have h1 := hmax 1 (by norm_num)
    simp only [Size.stringLoop_step, tmod_pow_eq_zero_iff, tdiv_pow_eq q hq]
    interval_cases k
    · have e4 : ¬ (1024 : Int) ^ 4 ∣ q := fun h => by have := h4 h; omega
      have e3 : ¬ (1024 : Int) ^ 3 ∣ q := fun h => by have := h3 h; omega
      have e2 : ¬ (1024 : Int) ^ 2 ∣ q := fun h => by have := h2 h; omega
      have e1 : ¬ (1024 : Int) ^ 1 ∣ q := fun h => by have := h1 h; omega
      norm_num at e1 e2 e3 e4
      simp [e4, e3, e2, e1, Size.stringLoop]
    · have e4 : ¬ (1024 : Int) ^ 4 ∣ q := fun h => by have := h4 h; omega
      have e3 : ¬ (1024 : Int) ^ 3 ∣ q := fun h => by have := h3 h; omega
      have e2 : ¬ (1024 : Int) ^ 2 ∣ q := fun h => by have := h2 h; omega
      norm_num at e2 e3 e4 hdvd
      simp [e4, e3, e2, hdvd]
    · have e4 : ¬ (1024 : Int) ^ 4 ∣ q := fun h => by have := h4 h; omega
      have e3 : ¬ (1024 : Int) ^ 3 ∣ q := fun h => by have := h3 h; omega
      norm_num at e3 e4 hdvd
      simp [e4, e3, hdvd]
    · have e4 : ¬ (1024 : Int) ^ 4 ∣ q := fun h => by have := h4 h; omega
      norm_num at e4 hdvd
      simp [e4, hdvd]
    · norm_num at hdvd
      simp [hdvd]

/-! ### Decimal text -/

theorem digitChar_toNat (d : Nat) (hd : d < 10) : (Char.ofNat (48 + d)).toNat = 48 + d := by
  interval_cases d <;> rfl

theorem isDigit_digitChar (d : Nat) (hd : d < 10) : isDigit (Char.ofNat (48 + d)) = true := by
  interval_cases d <;> rfl

theorem formatNatAux_acc (fuel n : Nat) (acc : List Char) :
    formatNatAux fuel n acc = formatNatAux fuel n [] ++ acc := by
  induction fuel generalizing n acc with
  | zero => simp [formatNatAux]
  | succ f ih =>
    simp only [formatNatAux]
    split
    · simp
    · rw [ih (n / 10) (_ :: acc), ih (n / 10) [_]]
      simp

theorem formatNatAux_fuel (f1 f2 n : Nat) (acc : List Char) (h1 : n < f1) (h2 : n < f2) :
    formatNatAux f1 n acc = formatNatAux f2 n acc := by
  induction f1 generalizing n acc f2 with
  | zero => omega
  | succ f ih =>
    cases f2 with
    | zero => omega
    | succ g =>
      simp only [formatNatAux]
      split
      · rfl
      · rename_i hne
        have hpos : 0 < n / 10 := Nat.pos_of_ne_zero hne
        have hlt : n / 10 < n := Nat.div_lt_self (by omega) (by norm_num)
        exact ih g (n / 10) _ (by omega) (by omega)

theorem formatNat_small (n : Nat) (hn : n < 10) : formatNat n = [Char.ofNat (48 + n)] := by
  have h0 : n / 10 = 0 := by omega
  have h1 : n % 10 = n := by omega
  simp [formatNat, formatNatAux, h0, h1]

theorem formatNat_large (n : Nat) (hn : 10 ≤ n) :
    formatNat n = formatNat (n / 10) ++ [Char.ofNat (48 + n % 10)] := by
  have h0 : n / 10 ≠ 0 := by omega
  have hlt : n / 10 < n := Nat.div_lt_self (by omega) (by norm_num)
  unfold formatNat
  rw [formatNatAux]
  simp only [h0, if_false]
  rw [formatNatAux_acc, formatNatAux_fuel n (n / 10 + 1) (n / 10) [] hlt (by omega)]

theorem digitsValue_append_singleton (l : List Char) (c : Char) :
    digitsValue (l ++ [c]) = digitsValue l * 10 + (c.toNat - 48) := by
  simp [digitsValue, List.foldl_append]

/-- Reading back the decimal text of `n` gives `n`. -/
theorem digitsValue_formatNat (n : Nat) : digitsValue (formatNat n) = n := by
  induction n using Nat.strong_induction_on with
  | _ n ih =>
    by_cases hn : n < 10
    · rw [formatNat_small n hn]
      simp [digitsValue, digitChar_toNat n hn]
    · have hlt : n / 10 < n := Nat.div_lt_self (by omega) (by norm_num)
      rw [formatNat_large n (by omega), digitsValue_append_singleton, ih _ hlt,
        digitChar_toNat _ (Nat.mod_lt _ (by norm_num))]
      omega

/-- The decimal text of `n` is made of digits. -/
theorem formatNat_all_digits (n : Nat) : ∀ c ∈ formatNat n, isDigit c = true := by
  induction n using Nat.strong_induction_on with
  | _ n ih =>
    by_cases hn : n < 10
    · rw [formatNat_small n hn]
      simp [isDigit_digitChar n hn]
    · have hlt : n / 10 < n := Nat.div_lt_self (by omega) (by norm_num)
      rw [formatNat_large n (by omega)]
      intro c hc
      rcases List.mem_append.1 hc with h | h
      · exact ih _ hlt c h
      · simp only [List.mem_singleton] at h
        rw [h]
        exact isDigit_digitChar _ (Nat.mod_lt _ (by norm_num))

theorem formatNat_ne_nil (n : Nat) : formatNat n ≠ [] := by
  by_cases hn : n < 10
  · rw [formatNat_small n hn]; simp
  · rw [formatNat_large n (by omega)]; simp

/-! ### Scanning lemmas -/

theorem takeWhile_append_stop (p : Char → Bool) (l r : List Char)
    (hl : ∀ a ∈ l, p a = true) (hr : ∀ c ∈ r.head?, p c = false) :
    (l ++ r).takeWhile p = l := by
  rw [List.takeWhile_append_of_pos hl]
  cases r with
  | nil => simp
  | cons c cs =>
    have : p c = false := hr c (by simp)
    simp [List.takeWhile_cons, this]

theorem dropWhile_append_stop (p : Char → Bool) (l r : List Char)
    (hl : ∀ a ∈ l, p a = true) (hr : ∀ c ∈ r.head?, p c = false) :
    (l ++ r).dropWhile p = r := by
  rw [List.dropWhile_append_of_pos hl]
  cases r with
  | nil => simp
  | cons c cs =>
    have : p c = false := hr c (by simp)
    simp [List.dropWhile_cons, this]

theorem isSpace_of_isDigit (c : Char) (h : isDigit c = true) : isSpace c = false := by
  simp only [isDigit, Bool.and_eq_true, decide_eq_true_eq] at h
  simp only [isSpace, Bool.or_eq_false_iff, Bool.and_eq_false_imp, decide_eq_true_eq,
    decide_eq_false_iff_not, beq_eq_false_iff_ne, ne_eq]
  omega

theorem isSpace_of_isLetter (c : Char) (h : isLetter c = true) : isSpace c = false := by
  simp only [isLetter, Bool.or_eq_true, Bool.and_eq_true, decide_eq_true_eq] at h
  simp only [isSpace, Bool.or_eq_false_iff, Bool.and_eq_false_imp, decide_eq_true_eq,
    decide_eq_false_iff_not, beq_eq_false_iff_ne, ne_eq]
  omega

theorem isDigit_of_isLetter (c : Char) (h : isLetter c = true) : isDigit c = false := by
  simp only [isLetter, Bool.or_eq_true, Bool.and_eq_true, decide_eq_true_eq] at h
  simp only [isDigit, Bool.and_eq_false_imp, decide_eq_true_eq, decide_eq_false_iff_not]
  omega

theorem ne_space_of_isLetter (c : Char) (h : isLetter c = true) : c ≠ ' ' := by
  rintro rfl
  exact absurd h (by decide)

theorem ne_dot_of_isLetter (c : Char) (h : isLetter c = true) : c ≠ '.' := by
  rintro rfl
  exact absurd h (by decide)

/-- The function `strings.TrimSpace` leaves a text alone that neither starts nor
ends with white space. -/
theorem TrimSpace_eq_self (s : List Char) (hh : ∀ c ∈ s.head?, isSpace c = false)
    (hl : ∀ c ∈ s.getLast?, isSpace c = false) : TrimSpace s = s := by
  have h1 : s.dropWhile isSpace = s := by
    cases s with
    | nil => rfl
    | cons c cs =>
      have : isSpace c = false := hh c (by simp)
      simp [List.dropWhile_cons, this]
  unfold TrimSpace
  rw [h1]
  show List.rdropWhile isSpace s = s
  rw [List.rdropWhile_eq_self_iff]
  intro hne
  have := hl (s.getLast hne) (by simp [List.getLast?_eq_getLast _ hne])
  simp [this]

/-! ### The pattern on a number token followed by a unit token -/

theorem head_spaces_unit (sp : Nat) (unit : List Char) (hul : ∀ c ∈ unit, isLetter c = true) :
    ∀ c ∈ (List.replicate sp ' ' ++ unit).head?, isDigit c = false ∧ c ≠ '.' ∧
      isSpace c = (decide (c = ' ')) := by
  intro c hc
  cases sp with
  | zero =>
    cases unit with
    | nil => simp at hc
    | cons u us =>
      simp only [List.replicate_zero, List.nil_append, List.head?_cons, Option.mem_def,
        Option.some.injEq] at hc
      subst hc
      have hl := hul u (by simp)
      refine ⟨isDigit_of_isLetter u hl, ne_dot_of_isLetter u hl, ?_⟩
      rw [isSpace_of_isLetter u hl]
      simp [ne_space_of_isLetter u hl]
  | succ n =>
    simp only [List.replicate_succ, List.cons_append, List.head?_cons, Option.mem_def,
      Option.some.injEq] at hc
    subst hc
    decide

theorem dropWhile_spaces_unit (sp : Nat) (unit : List Char)
    (hul : ∀ c ∈ unit, isLetter c = true) :
    (List.replicate sp ' ' ++ unit).dropWhile (fun c => decide (c = ' ')) = unit := by
  apply dropWhile_append_stop
  · intro a ha
    simp [List.eq_of_mem_replicate ha]
  · intro c hc
    cases unit with
    | nil => simp at hc
    | cons u us =>
      simp only [List.head?_cons, Option.mem_def, Option.some.injEq] at hc
      subst hc
      simp [ne_space_of_isLetter u (hul u (by simp))]

/-- The pattern `re` matches a number token, spaces and a unit token, and
captures the two tokens. -/
theorem re_token (ip fr unit : List Char) (sp : Nat)
    (hip : ∀ c ∈ ip, isDigit c = true) (hfr : ∀ c ∈ fr, isDigit c = true)
    (hu : unit ≠ []) (hul : ∀ c ∈ unit, isLetter c = true) :
    re (numberToken ip fr ++ (List.replicate sp ' ' ++ unit)) =
      some (numberToken ip fr, unit) := by
  have hrest := head_spaces_unit sp unit hul
  have hall : unit.all isLetter = true := by simpa using hul
  by_cases hf : fr = []
  · subst hf
    simp only [numberToken, if_true]
    unfold re
    rw [takeWhile_append_stop isDigit ip _ hip (fun c hc => (hrest c hc).1),
      dropWhile_append_stop isDigit ip _ hip (fun c hc => (hrest c hc).1)]
    have hnr : (match List.replicate sp ' ' ++ unit with
        | c :: r => if c = '.' ∧ r.takeWhile isDigit ≠ [] then
            (ip ++ c :: r.takeWhile isDigit, r.dropWhile isDigit)
          else (ip, List.replicate sp ' ' ++ unit)
        | [] => (ip, List.replicate sp ' ' ++ unit)) = (ip, List.replicate sp ' ' ++ unit) := by
      split
      · rename_i c r heq
        have := (hrest c (by simp [heq])).2.1
        simp [this]
      · rfl
    simp only [hnr, dropWhile_spaces_unit sp unit hul, hall, hu, ne_eq, not_false_eq_true,
      and_self, if_true]
  · simp only [numberToken, hf, if_false]
    unfold re
    have hdot : ∀ c ∈ ('.' :: (fr ++ (List.replicate sp ' ' ++ unit))).head?,
        isDigit c = false := by
      intro c hc
      simp only [List.head?_cons, Option.mem_def, Option.some.injEq] at hc
      subst hc
      decide
    have e1 : ip ++ '.' :: fr ++ (List.replicate sp ' ' ++ unit) =
        ip ++ '.' :: (fr ++ (List.replicate sp ' ' ++ unit)) := by simp
    rw [e1, takeWhile_append_stop isDigit ip _ hip hdot,
      dropWhile_append_stop isDigit ip _ hip hdot]
    simp only [takeWhile_append_stop isDigit fr _ hfr (fun c hc => (hrest c hc).1),
      dropWhile_append_stop isDigit fr _ hfr (fun c hc => (hrest c hc).1), hf, ne_eq,
      not_false_eq_true, and_self, if_true, dropWhile_spaces_unit sp unit hul, hall, hu]

theorem ParseFloat_token (ip fr : List Char)
    (hip : ∀ c ∈ ip, isDigit c = true) (hfr : ∀ c ∈ fr, isDigit c = true) :
    ParseFloat (numberToken ip fr) =
      if ip = [] ∧ fr = [] then none else roundDecimal (digitsValue (ip ++ fr)) fr.length := by
  by_cases hf : fr = []
  · subst hf
    have e1 : ip.takeWhile isDigit = ip := by
      simpa using takeWhile_append_stop isDigit ip [] hip (by simp)
    have e2 : ip.dropWhile isDigit = [] := by
      simpa using dropWhile_append_stop isDigit ip [] hip (by simp)
    simp only [numberToken, if_true, ParseFloat, e1, e2, and_true, List.append_nil,
      List.length_nil]
  · have hdot : ∀ c ∈ ('.' :: fr).head?, isDigit c = false := by
      intro c hc
      simp only [List.head?_cons, Option.mem_def, Option.some.injEq] at hc
      subst hc
      decide
    have hall : fr.all isDigit = true := by simpa using hfr
    simp only [numberToken, hf, if_false, ParseFloat,
      takeWhile_append_stop isDigit ip _ hip hdot, dropWhile_append_stop isDigit ip _ hip hdot,
      hall, and_false, not_false_eq_true, and_self, if_true]

theorem head_numberToken (ip fr rest : List Char) (hip : ∀ c ∈ ip, isDigit c = true)
    (hne : ¬ (ip = [] ∧ fr = [])) :
    ∀ c ∈ (numberToken ip fr ++ rest).head?, isSpace c = false := by
  intro c hc
  cases ip with
  | cons d ds =>
    have hd : c = d := by
      by_cases hf : fr = [] <;> simp [numberToken, hf] at hc <;> exact hc.symm
    rw [hd]
    exact isSpace_of_isDigit d (hip d (by simp))
  | nil =>
    have hf : fr ≠ [] := fun h => hne ⟨rfl, h⟩
    simp [numberToken, hf] at hc
    rw [← hc]
    decide

theorem getLast_append_unit (pre unit : List Char) (hu : unit ≠ [])
    (hul : ∀ c ∈ unit, isLetter c = true) :
    ∀ c ∈ (pre ++ unit).getLast?, isLetter c = true := by
  intro c hc
  rw [List.getLast?_append_of_ne_nil _ hu] at hc
  exact hul c (List.mem_of_getLast?_eq_some hc)

/-- What `Parse` does on a number token, spaces and a token of letters: the
pattern matches, the number is read as a `float64`, and the `switch` decides. -/
theorem Parse_token (ip fr unit : List Char) (sp : Nat)
    (hip : ∀ c ∈ ip, isDigit c = true) (hfr : ∀ c ∈ fr, isDigit c = true)
    (hne : ¬ (ip = [] ∧ fr = []))
    (hu : unit ≠ []) (hul : ∀ c ∈ unit, isLetter c = true) :
    Parse (numberToken ip fr ++ (List.replicate sp ' ' ++ unit)) =
      match roundDecimal (digitsValue (ip ++ fr)) fr.length with
      | none => ParseResult.panicked
      | some value =>
        match applyUnit value unit with
        | some v => toSize v
        | none => ParseResult.error ("invalid byteunit: ".toList ++
            (numberToken ip fr ++ (List.replicate sp ' ' ++ unit))) := by
  have hlast : ∀ c ∈ (numberToken ip fr ++ (List.replicate sp ' ' ++ unit)).getLast?,
      isLetter c = true := by
    rw [← List.append_assoc]
    exact getLast_append_unit _ unit hu hul
  have htrim : TrimSpace (numberToken ip fr ++ (List.replicate sp ' ' ++ unit)) =
      numberToken ip fr ++ (List.replicate sp ' ' ++ unit) :=
    TrimSpace_eq_self _ (head_numberToken ip fr _ hip hne)
      (fun c hc => isSpace_of_isLetter c (hlast c hc))
  have hzero : numberToken ip fr ++ (List.replicate sp ' ' ++ unit) ≠ "0".toList := by
    intro h
    have := hlast '0' (by rw [h]; rfl)
    exact absurd this (by decide)
  unfold Parse
  simp only [htrim, hzero, if_false, re_token ip fr unit sp hip hfr hu hul,
    ParseFloat_token ip fr hip hfr, hne]

/-! ### Rounding to `float64` -/

theorem log2Aux_spec (fuel n : Nat) (hn : 0 < n) (hf : n ≤ fuel) :
    2 ^ log2Aux fuel n ≤ n ∧ n < 2 ^ (log2Aux fuel n + 1) := by
  induction fuel generalizing n with
  | zero => omega
  | succ f ih =>
    unfold log2Aux
    by_cases h2 : n < 2
    · simp only [h2, if_true]
      constructor <;> simp <;> omega
    · simp only [h2, if_false]
      have := ih (n / 2) (by omega) (by omega)
      rw [pow_succ, pow_succ]
      omega

theorem log2_spec (n : Nat) (hn : 0 < n) : 2 ^ log2 n ≤ n ∧ n < 2 ^ (log2 n + 1) :=
  log2Aux_spec n n hn (le_refl n)

theorem log2_lt_of_lt_pow (n b : Nat) (h : n < 2 ^ b) : log2 n ≤ b := by
  rcases Nat.eq_zero_or_pos n with h0 | hpos
  · subst h0
    simp [log2, log2Aux]
  · have h1 := (log2_spec n hpos).1
    have h2 : 2 ^ log2 n < 2 ^ b := lt_of_le_of_lt h1 h
    exact le_of_lt ((Nat.pow_lt_pow_iff_right (by norm_num)).1 h2)

theorem floorPow2_mul_pow (N a : Nat) (e : Int) (h : 0 ≤ e + a) :
    floorPow2 (N * 2 ^ a) e = N * 2 ^ (e + a).toNat := by
  unfold floorPow2
  rcases le_or_lt 0 e with he | he
  · obtain ⟨k, rfl⟩ := Int.eq_ofNat_of_zero_le he
    have e1 : (-(k : Int)).toNat = 0 := by omega
    have e2 : ((k : Int) + a).toNat = k + a := by omega
    simp only [Int.toNat_ofNat, e1, e2, pow_zero, Nat.div_one]
    rw [mul_assoc, ← pow_add, add_comm]
  · obtain ⟨k, hk⟩ : ∃ k : Nat, e = -(k : Int) := ⟨(-e).toNat, by omega⟩
    subst hk
    have e1 : (-(k : Int)).toNat = 0 := by omega
    have e2 : (-(-(k : Int))).toNat = k := by omega
    have hka : k ≤ a := by omega
    have e3 : (-(k : Int) + a).toNat = a - k := by omega
    simp only [e1, e2, e3, pow_zero, mul_one]
    have : 2 ^ a = 2 ^ (a - k) * 2 ^ k := by rw [← pow_add]; congr 1; omega
    rw [this, ← mul_assoc, Nat.mul_div_cancel _ (by positivity)]

theorem log2_lt (n b : Nat) (hn : 0 < n) (h : n < 2 ^ b) : log2 n < b := by
  have h2 : 2 ^ log2 n < 2 ^ b := lt_of_le_of_lt (log2_spec n hn).1 h
  exact (Nat.pow_lt_pow_iff_right (by norm_num)).1 h2

theorem isFloat64_dvd (N : Nat) (h : isFloat64 N) : 2 ^ (log2 N - 52) ∣ N := by
  obtain ⟨m, t, hN, hm⟩ := h
  rcases Nat.eq_zero_or_pos N with h0 | hpos
  · rw [h0]; exact dvd_zero _
  · have hlt : N < 2 ^ (53 + t) := by
      rw [hN, pow_add]
      exact Nat.mul_lt_mul_of_lt_of_le hm (le_refl _) (by positivity)
    have hL := log2_lt N (53 + t) hpos hlt
    have h1 : 2 ^ (log2 N - 52) ∣ 2 ^ t := pow_dvd_pow 2 (by omega)
    have h2 : 2 ^ (log2 N - 52) ∣ m * 2 ^ t := Dvd.dvd.mul_left h1 m
    rwa [← hN] at h2

theorem isFloat64_of_lt (N : Nat) (h : N < 2 ^ 53) : isFloat64 N :=
  ⟨N, 0, by simp, h⟩

/-- A natural number that is a `float64` is read exactly: reading its decimal
text gives the number itself, and scaling it by a power of two is exact. -/
theorem roundDecimal_nat (N : Nat) (hrep : isFloat64 N) (hN : log2 N < 1024) :
    ∃ m e, roundDecimal N 0 = some (F64.finite m e) ∧
      ∀ p : Nat, floorPow2 m (e + p) = N * 2 ^ p := by
  rcases Nat.eq_zero_or_pos N with h0 | hpos
  · subst h0
    exact ⟨0, 0, by simp [roundDecimal], fun p => by simp [floorPow2]⟩
  · have hL := (log2_spec N hpos).1
    obtain ⟨N1, hN1⟩ := isFloat64_dvd N hrep
    obtain ⟨L, hLdef⟩ : ∃ L, L = log2 N := ⟨_, rfl⟩
    rw [← hLdef] at hL hN1 hN
    have hm0 : N * 2 ^ (52 - L) / 2 ^ (L - 52) = N1 * 2 ^ (52 - L) := by
      rw [hN1, mul_assoc, Nat.mul_div_cancel_left _ (Nat.pow_pos (by norm_num))]
    have hmod : N * 2 ^ (52 - L) % 2 ^ (L - 52) = 0 := by
      rw [hN1, mul_assoc]
      exact Nat.mul_mod_right _ _
    have hfl : ∀ p : Nat, floorPow2 (N1 * 2 ^ (52 - L)) ((L : Int) - 52 + p) = N * 2 ^ p := by
      intro p
      rw [floorPow2_mul_pow _ _ _ (by omega)]
      have e : ((L : Int) - 52 + p + ((52 - L : Nat) : Int)).toNat = (L - 52) + p := by omega
      rw [e, hN1, pow_add]
      ring
    refine ⟨N1 * 2 ^ (52 - L), (L : Int) - 52, ?_, hfl⟩
    have hlog1 : log2 1 = 0 := by decide
    have hc : pow2Le N 1 ((L : Int) - (0 : Nat)) = true := by
      have e1 : ((L : Int) - (0 : Nat)).toNat = L := by omega
      have e2 : (-((L : Int) - (0 : Nat))).toNat = 0 := by omega
      simp only [pow2Le, e1, e2, pow_zero, mul_one, one_mul, decide_eq_true_eq]
      exact hL
    have hq : max ((L : Int) - (0 : Nat) - 52) (-1074) = (L : Int) - 52 := by
      rw [max_eq_left (by omega)]
      omega
    have e3 : (-((L : Int) - 52)).toNat = 52 - L := by omega
    have e4 : ((L : Int) - 52).toNat = L - 52 := by omega
    have hfl0 := hfl 0
    simp only [Nat.cast_zero, add_zero, pow_zero, mul_one] at hfl0
    have hno : ¬ 1024 ≤ L := by omega
    have hB : ¬ 2 ^ (L - 52) < 0 := Nat.not_lt_zero _
    have hB0 : ¬ (0 = 2 ^ (L - 52)) := by
      have : 0 < 2 ^ (L - 52) := Nat.pow_pos (by norm_num)
      omega
    simp only [roundDecimal, Nat.pos_iff_ne_zero.1 hpos, if_false, pow_zero, hlog1, hc, if_true,
      ← hLdef, hq, e3, e4, one_mul, hm0, hmod, mul_zero, hB, hB0, false_and, or_self, hfl0, hno]

/-! ### The switch on the unit token -/

theorem scale_finite (m : Nat) (e : Int) (p : Nat) (h : floorPow2 m (e + p) < 2 ^ 63) :
    scale (F64.finite m e) p = F64.finite m (e + p) := by
  have := log2_lt_of_lt_pow _ _ h
  have hno : ¬ 1024 ≤ log2 (floorPow2 m (e + p)) := by omega
  simp only [scale, hno, if_false]

theorem applyUnit_of_exponent (unit : List Char) (k : Nat) (m : Nat) (e : Int)
    (hk : unitExponent unit = some k)
    (h : floorPow2 m (e + (10 * k : Nat)) < 2 ^ 63) :
    applyUnit (F64.finite m e) unit = some (F64.finite m (e + (10 * k : Nat))) := by
  unfold unitExponent at hk
  unfold applyUnit
  split_ifs at hk ⊢ <;> simp only [Option.some.injEq] at hk <;> subst hk
  · simp
  all_goals exact congrArg some (scale_finite m e _ h)

theorem applyUnit_eq_none (v : F64) (unit : List Char) :
    applyUnit v unit = none ↔ unitExponent unit = none := by
  unfold unitExponent applyUnit
  split_ifs <;> simp

theorem unitExponent_ne_nil (unit : List Char) (k : Nat) (hk : unitExponent unit = some k) :
    unit ≠ [] := by
  rintro rfl
  have h0 : unitExponent [] = none := by decide
  rw [h0] at hk
  exact absurd hk (by simp)

/-- The value `Parse` returns on a number token, spaces and a recognized unit
token: with `m * 2^e` the `float64` read from the token and `k` the exponent of
the unit, the integer part of `m * 2^e * 1024^k`. -/
theorem Parse_token_value (ip fr unit : List Char) (sp k m : Nat) (e : Int)
    (hip : ∀ c ∈ ip, isDigit c = true) (hfr : ∀ c ∈ fr, isDigit c = true)
    (hne : ¬ (ip = [] ∧ fr = []))
    (hul : ∀ c ∈ unit, isLetter c = true)
    (hk : unitExponent unit = some k)
    (hr : roundDecimal (digitsValue (ip ++ fr)) fr.length = some (F64.finite m e))
    (hlt : floorPow2 m (e + (10 * k : Nat)) < 2 ^ 63) :
    Parse (numberToken ip fr ++ (List.replicate sp ' ' ++ unit)) =
      ParseResult.size (floorPow2 m (e + (10 * k : Nat))) := by
  rw [Parse_token ip fr unit sp hip hfr hne (unitExponent_ne_nil unit k hk) hul, hr]
  simp only [applyUnit_of_exponent unit k m e hk hlt, toSize, hlt, if_true]

/-- On a token of digits whose value is a `float64` the value is exact. -/
theorem Parse_digits_unit (ds unit : List Char) (sp k : Nat)
    (hds : ∀ c ∈ ds, isDigit c = true) (hne : ds ≠ [])
    (hul : ∀ c ∈ unit, isLetter c = true)
    (hk : unitExponent unit = some k)
    (h53 : isFloat64 (digitsValue ds))
    (hlt : digitsValue ds * 1024 ^ k < 2 ^ 63) :
    Parse (ds ++ (List.replicate sp ' ' ++ unit)) =
      ParseResult.size ((digitsValue ds * 1024 ^ k : Nat) : Int) := by
  have hbig : log2 (digitsValue ds) < 1024 := by
    have h1 : digitsValue ds ≤ digitsValue ds * 1024 ^ k :=
      Nat.le_mul_of_pos_right _ (by positivity)
    have h2 := log2_lt_of_lt_pow (digitsValue ds) 63 (by omega)
    omega
  obtain ⟨m, e, hr, hfl⟩ := roundDecimal_nat (digitsValue ds) h53 hbig
  have hpow : (1024 : Nat) ^ k = 2 ^ (10 * k) := by rw [pow_mul]; norm_num
  have hval := hfl (10 * k)
  rw [← hpow] at hval
  have := Parse_token_value ds [] unit sp k m e hds (by simp) (by simp [hne]) hul hk
    (by simpa using hr) (by rw [hval]; exact hlt)
  rw [hval] at this
  simpa [numberToken] using this

/-! ### The canonical display and its parse -/

theorem exists_largest_unit (q : Int) :
    ∃ k : Nat, k ≤ 4 ∧ (1024 : Int) ^ k ∣ q ∧
      ∀ j : Nat, j ≤ 4 → (1024 : Int) ^ j ∣ q → j ≤ k := by
  by_cases h4 : (1024 : Int) ^ 4 ∣ q
  · exact ⟨4, le_refl _, h4, fun j hj _ => hj⟩
  by_cases h3 : (1024 : Int) ^ 3 ∣ q
  · refine ⟨3, by norm_num, h3, fun j hj hd => ?_⟩
    interval_cases j <;> omega
  by_cases h2 : (1024 : Int) ^ 2 ∣ q
  · refine ⟨2, by norm_num, h2, fun j hj hd => ?_⟩
    interval_cases j <;> omega
  by_cases h1 : (1024 : Int) ^ 1 ∣ q
  · refine ⟨1, by norm_num, h1, fun j hj hd => ?_⟩
    interval_cases j <;> omega
  · refine ⟨0, by norm_num, by simp, fun j hj hd => ?_⟩
    interval_cases j <;> omega

theorem formatInt_natCast (M : Nat) : formatInt (M : Int) = formatNat M := by
  simp [formatInt]

/-- Parsing the display of a size whose canonical unit is `MB`, `GB` or `TB`. -/
theorem Parse_String_large (N k : Nat) (hk2 : 2 ≤ k) (hk4 : k ≤ 4) (hd : 1024 ^ k ∣ N)
    (hN : N < 2 ^ 63) :
    Parse (formatInt ((N : Int) / 1024 ^ k) ++ " ".toList ++ units.getD k []) =
      ParseResult.size (N : Int) := by
  have hcast : (N : Int) / 1024 ^ k = ((N / 1024 ^ k : Nat) : Int) := by norm_cast
  rw [hcast, formatInt_natCast]
  have hmul : N / 1024 ^ k * 1024 ^ k = N := Nat.div_mul_cancel hd
  have hle : (1024 : Nat) ^ 2 ≤ 1024 ^ k := Nat.pow_le_pow_right (by norm_num) hk2
  have h53 : N / 1024 ^ k < 2 ^ 53 := by
    have h1 : N / 1024 ^ k ≤ N / 1024 ^ 2 := Nat.div_le_div_left hle (by norm_num)
    have h2 : N / 1024 ^ 2 < 2 ^ 53 := by norm_num; omega
    omega
  have hul : ∀ c ∈ units.getD k [], isLetter c = true := by
    interval_cases k <;> decide
  have hexp : unitExponent (units.getD k []) = some k := by
    interval_cases k <;> decide
  have := Parse_digits_unit (formatNat (N / 1024 ^ k)) (units.getD k []) 1 k
    (formatNat_all_digits _) (formatNat_ne_nil _) hul hexp
    (by rw [digitsValue_formatNat]; exact isFloat64_of_lt _ h53)
    (by rw [digitsValue_formatNat, hmul]; exact hN)
  rw [digitsValue_formatNat, hmul] at this
  simpa using this

/-- Parsing the display of a size that no unit above the byte divides. -/
theorem Parse_String_bytes (N : Nat) (hrep : isFloat64 N) (hN : N < 2 ^ 63) :
    Parse (formatInt (N : Int) ++ " bytes".toList) = ParseResult.size (N : Int) := by
  rw [formatInt_natCast]
  have := Parse_digits_unit (formatNat N) "bytes".toList 1 0
    (formatNat_all_digits _) (formatNat_ne_nil _) (by decide) (by decide)
    (by rw [digitsValue_formatNat]; exact hrep)
    (by rw [digitsValue_formatNat]; omega)
  rw [digitsValue_formatNat] at this
  simpa using this

/-! ### C1: round trip -/

set_option maxRecDepth 100000 in
/-- C1, as stated, fails: the display of 1024 is `"1 kB"`, which `Parse` rejects
(its `switch` lists `"Kb"` and `"kb"`), and the display of `2^53 + 1` parses to
`2^53`, the nearest `float64`. -/
theorem Parse_String_not_roundtrip :
    Size.String 1024 = "1 kB".toList ∧
    Parse (Size.String 1024) = ParseResult.error "invalid byteunit: 1 kB".toList ∧
    Parse (Size.String 9007199254740993) = ParseResult.size 9007199254740992 := by
  decide

/-- C1, amended: for every size `0 ≤ q < 2^63` that is a `float64` value (at most
53 significant bits) and whose canonical unit is not `kB` (`q` is not a multiple
of 1024, or is a multiple of `1024^2`), `Parse (Size.String q)` returns `q` with
no error. -/
theorem Parse_String_roundtrip (q : Nat) (hlt : q < 2 ^ 63) (hrep : isFloat64 q)
    (h : ¬ 1024 ∣ q ∨ 1024 ^ 2 ∣ q) :
    Parse (Size.String (q : Int)) = ParseResult.size (q : Int) := by
  obtain ⟨k, hk4, hdvd, hmax⟩ := exists_largest_unit (q : Int)
  rw [Size.String_of_largest (q : Int) k (Int.natCast_nonneg q) hk4 hdvd hmax]
  unfold Size.StringRef
  by_cases h0 : (q : Int) = 0
  · simp only [h0, if_true]
    decide
  simp only [h0, if_false]
  have hdN : 1024 ^ k ∣ q := by exact_mod_cast hdvd
  by_cases hk1 : 1 ≤ k
  · simp only [hk1, if_true]
    have h1024 : 1024 ∣ q := by
      have : 1024 ^ 1 ∣ 1024 ^ k := pow_dvd_pow _ hk1
      simpa using this.trans hdN
    rcases h with hn | h2
    · exact absurd h1024 hn
    · have hk2 : 2 ≤ k := hmax 2 (by norm_num) (by exact_mod_cast h2)
      exact Parse_String_large q k hk2 hk4 hdN hlt
  · simp only [hk1, if_false]
    by_cases h1 : (q : Int) = 1
    · simp only [h1, if_true]
      decide
    · simp only [h1, if_false]
      exact Parse_String_bytes q hrep hlt

/-- C1, amended, at `3 MB`, at 1536 bytes and at `2^53 + 2` bytes. -/
theorem Parse_String_roundtrip_witness :
    Parse (Size.String 3145728) = ParseResult.size 3145728 ∧
    Parse (Size.String 1536) = ParseResult.size 1536 ∧
    Parse (Size.String 9007199254740994) = ParseResult.size 9007199254740994 :=
  ⟨Parse_String_roundtrip 3145728 (by decide) ⟨3, 20, by decide, by decide⟩
      (Or.inr (by decide)),
   Parse_String_roundtrip 1536 (by decide) ⟨1536, 0, by decide, by decide⟩
      (Or.inl (by decide)),
   Parse_String_roundtrip 9007199254740994 (by decide)
      ⟨4503599627370497, 1, by decide, by decide⟩ (Or.inl (by decide))⟩

/-! ### C2: the canonical display -/

/-- C2: for a size `q ≥ 0`, with `k` the largest index in `0..4` such that
`1024^k` divides `q`, `Size.String q` is the reference display: `"0"` for zero,
the decimal of `q / 1024^k`, a space and the `k`-th unit name when `k ≥ 1`,
and `"1 byte"` or the decimal of `q` followed by `" bytes"` when `k = 0`. -/
theorem Size.String_eq_StringRef (q : Int) (k : Nat) (hq : 0 ≤ q) (hk : k ≤ 4)
    (hdvd : (1024 : Int) ^ k ∣ q)
    (hmax : ∀ j : Nat, j ≤ 4 → (1024 : Int) ^ j ∣ q → j ≤ k) :
    Size.String q = Size.StringRef q k :=
  Size.String_of_largest q k hq hk hdvd hmax

/-- C2 at 1024, `1024 * 1024`, 1536 and 2. -/
theorem Size.String_eq_StringRef_witness :
    Size.String 1024 = "1 kB".toList ∧ Size.String (1024 * 1024) = "1 MB".toList ∧
    Size.String 1536 = "1536 bytes".toList ∧ Size.String 2 = "2 bytes".toList :=
  ⟨(Size.String_eq_StringRef 1024 1 (by decide) (by decide) (by decide)
      (fun j hj hd => by interval_cases j <;> omega)).trans (by decide),
   (Size.String_eq_StringRef (1024 * 1024) 2 (by decide) (by decide) (by decide)
      (fun j hj hd => by interval_cases j <;> omega)).trans (by decide),
   (Size.String_eq_StringRef 1536 0 (by decide) (by decide) (by decide)
      (fun j hj hd => by interval_cases j <;> omega)).trans (by decide),
   (Size.String_eq_StringRef 2 0 (by decide) (by decide) (by decide)
      (fun j hj hd => by interval_cases j <;> omega)).trans (by decide)⟩

/-! ### C3: garbage -/

/-- C3: on `"abc"` the pattern matches with an empty number, the number parser
rejects it and `Parse` panics instead of returning an error; on `"10 XB"` it
returns an error. -/
theorem Parse_abc_panics :
    Parse "abc".toList = ParseResult.panicked ∧
    Parse "10 XB".toList = ParseResult.error "invalid byteunit: 10 XB".toList := by
  decide

/-! ### C4: unit spellings -/

set_option maxRecDepth 100000 in
/-- C4, as stated, fails: `"byte(s)"` never passes the pattern, `kB` and mixed
case spellings are not in the `switch`, and a number above `2^53` is rounded. -/
theorem Parse_synonyms_fail :
    Parse "1 byte(s)".toList = ParseResult.error "unable to parse string: 1 byte(s)".toList ∧
    Parse "10 kB".toList = ParseResult.error "invalid byteunit: 10 kB".toList ∧
    Parse "10 Gb".toList = ParseResult.error "invalid byteunit: 10 Gb".toList ∧
    Parse "9007199254740993 byte".toList = ParseResult.size 9007199254740992 := by
  decide

/-- C4, amended: for every token of digits whose value `n` is a `float64` (at
most 53 significant bits), any number of spaces and any of the spellings `kb`,
`MB`, `mb`, `GB`, `gb`, `TB`, `tb` (power `k` of 1024) or `byte`, `bytes`
(`k = 0`), `Parse` returns `n * 1024^k` with no error, when that is below `2^63`. -/
theorem Parse_acceptedSpellings (ds : List Char) (sp : Nat) (u : List Char) (k : Nat)
    (hu : (u, k) ∈ acceptedSpellings)
    (hds : ∀ c ∈ ds, isDigit c = true) (hne : ds ≠ [])
    (h53 : isFloat64 (digitsValue ds)) (hlt : digitsValue ds * 1024 ^ k < 2 ^ 63) :
    Parse (ds ++ (List.replicate sp ' ' ++ u)) =
      ParseResult.size ((digitsValue ds * 1024 ^ k : Nat) : Int) := by
  have hall : ∀ p ∈ acceptedSpellings,
      (∀ c ∈ p.1, isLetter c = true) ∧ unitExponent p.1 = some p.2 := by decide
  have hfacts := hall (u, k) hu
  exact Parse_digits_unit ds u sp k hds hne hfacts.1 hfacts.2 h53 hlt

/-- C4, amended, at `"10 GB"`, `"10gb"` and `"1 bytes"`. -/
theorem Parse_acceptedSpellings_witness :
    Parse "10 GB".toList = ParseResult.size (10 * 1024 ^ 3) ∧
    Parse "10gb".toList = ParseResult.size (10 * 1024 ^ 3) ∧
    Parse "1 bytes".toList = ParseResult.size 1 :=
  ⟨Parse_acceptedSpellings "10".toList 1 "GB".toList 3 (by decide) (by decide) (by decide)
      ⟨10, 0, by decide, by decide⟩ (by decide),
   Parse_acceptedSpellings "10".toList 0 "gb".toList 3 (by decide) (by decide) (by decide)
      ⟨10, 0, by decide, by decide⟩ (by decide),
   Parse_acceptedSpellings "1".toList 1 "bytes".toList 0 (by decide) (by decide) (by decide)
      ⟨1, 0, by decide, by decide⟩ (by decide)⟩

/-! ### C5: the value of a parse -/

set_option maxRecDepth 100000 in
/-- C5, as stated, fails: the value is computed in `float64`, so
`"9007199254740993 bytes"` gives `9007199254740992`, and a number just below 1
gives 1. -/
theorem Parse_not_exact :
    Parse "9007199254740993 bytes".toList = ParseResult.size 9007199254740992 ∧
    Parse "0.99999999999999999999 bytes".toList = ParseResult.size 1 := by
  decide

/-- C5, amended: for a number token `x` (digits `ip`, optional fraction `fr`),
spaces and a unit token of letters that the `switch` recognizes with exponent
`k`, `Parse` returns the integer part of `f * 1024^k`, where `f = m * 2^e` is the
`float64` nearest to `x`, whenever that is below `2^63`. -/
theorem Parse_value_float64 (ip fr unit : List Char) (sp k m : Nat) (e : Int)
    (hip : ∀ c ∈ ip, isDigit c = true) (hfr : ∀ c ∈ fr, isDigit c = true)
    (hne : ¬ (ip = [] ∧ fr = []))
    (hul : ∀ c ∈ unit, isLetter c = true)
    (hk : unitExponent unit = some k)
    (hr : roundDecimal (digitsValue (ip ++ fr)) fr.length = some (F64.finite m e))
    (hlt : floorPow2 m (e + (10 * k : Nat)) < 2 ^ 63) :
    Parse (numberToken ip fr ++ (List.replicate sp ' ' ++ unit)) =
      ParseResult.size (floorPow2 m (e + (10 * k : Nat))) :=
  Parse_token_value ip fr unit sp k m e hip hfr hne hul hk hr hlt

set_option maxRecDepth 100000 in
/-- C5, amended, at `"1.5 kb"` (exact) and at `"0.1 kb"` (`0.1` is rounded to
`7205759403792794 * 2^-56`). -/
theorem Parse_value_float64_witness :
    Parse "1.5 kb".toList = ParseResult.size 1536 ∧
    Parse "0.1 kb".toList = ParseResult.size 102 :=
  ⟨Eq.trans (congrArg Parse (by decide))
    ((Parse_value_float64 "1".toList "5".toList "kb".toList 1 1 6755399441055744 (-52)
      (by decide) (by decide) (by decide) (by decide) (by decide) (by decide)
      (by decide)).trans (by decide)),
   Eq.trans (congrArg Parse (by decide))
    ((Parse_value_float64 "0".toList "1".toList "kb".toList 1 1 7205759403792794 (-56)
      (by decide) (by decide) (by decide) (by decide) (by decide) (by decide)
      (by decide)).trans (by decide))⟩

end byteunit

/-! ## Theorems: the string functions -/

namespace strings

theorem fieldsAux_spaces (w : List Char) (hw : ∀ c ∈ w, isSpace c = true) :
    fieldsAux [] w = [] := by
  induction w with
  | nil => rfl
  | cons c cs ih =>
    have hc : isSpace c = true := hw c (by simp)
    simp only [fieldsAux, hc, if_true]
    exact ih (fun d hd => hw d (by simp [hd]))

theorem fieldsAux_append_spaces (cur s w : List Char) (hw : ∀ c ∈ w, isSpace c = true) :
    fieldsAux cur (s ++ w) = fieldsAux cur s := by
  induction s generalizing cur with
  | nil =>
    cases w with
    | nil => rfl
    | cons c cs =>
      have hc : isSpace c = true := hw c (by simp)
      have hcs := fieldsAux_spaces cs (fun d hd => hw d (by simp [hd]))
      by_cases h : cur = [] <;> simp [fieldsAux, hc, hcs, h]
  | cons c cs ih =>
    simp only [List.cons_append, fieldsAux, List.append_eq, ih]

theorem Fields_spaces_append (w s : List Char) (hw : ∀ c ∈ w, isSpace c = true) :
    Fields (w ++ s) = Fields s := by
  induction w with
  | nil => rfl
  | cons c cs ih =>
    have hc : isSpace c = true := hw c (by simp)
    have := ih (fun d hd => hw d (by simp [hd]))
    unfold Fields at this ⊢
    simp only [List.cons_append, fieldsAux, hc, if_true]
    exact this

theorem Fields_append_spaces (s w : List Char) (hw : ∀ c ∈ w, isSpace c = true) :
    Fields (s ++ w) = Fields s :=
  fieldsAux_append_spaces [] s w hw

theorem fieldsAux_wf (cur s : List Char) (hcur : ∀ c ∈ cur, isSpace c = false) :
    ∀ w ∈ fieldsAux cur s, w ≠ [] ∧ ∀ c ∈ w, isSpace c = false := by
  induction s generalizing cur with
  | nil =>
    intro w hw
    by_cases h : cur = []
    · simp [fieldsAux, h] at hw
    · simp only [fieldsAux, h, if_false, List.mem_singleton] at hw
      subst hw
      exact ⟨by simpa using h, fun c hc => hcur c (by simpa using hc)⟩
  | cons c cs ih =>
    intro w hw
    by_cases hc : isSpace c = true
    · by_cases h : cur = []
      · simp only [fieldsAux, hc, h, if_true] at hw
        exact ih [] (by simp) w hw
      · simp only [fieldsAux, hc, h, if_true, if_false, List.mem_cons] at hw
        rcases hw with rfl | hw
        · exact ⟨by simpa using h, fun c hc => hcur c (by simpa using hc)⟩
        · exact ih [] (by simp) w hw
    · simp only [fieldsAux, hc] at hw
      refine ih (c :: cur) ?_ w hw
      intro d hd
      rcases List.mem_cons.1 hd with rfl | hd
      · simpa using hc
      · exact hcur d hd

/-- Every field is a non-empty word without white space. -/
theorem Fields_wf (s : List Char) :
    ∀ w ∈ Fields s, w ≠ [] ∧ ∀ c ∈ w, isSpace c = false :=
  fieldsAux_wf [] s (by simp)

theorem fieldsAux_word (cur w rest : List Char) (hw : ∀ c ∈ w, isSpace c = false) :
    fieldsAux cur (w ++ rest) = fieldsAux (w.reverse ++ cur) rest := by
  induction w generalizing cur with
  | nil => rfl
  | cons c cs ih =>
    have hc : isSpace c = false := hw c (by simp)
    simp only [List.cons_append, fieldsAux, hc, Bool.false_eq_true, if_false, List.append_eq]
    rw [ih (c :: cur) (fun d hd => hw d (by simp [hd]))]
    simp

/-- Splitting the joined fields gives the fields back. -/
theorem Fields_Join (F : List (List Char))
    (hF : ∀ w ∈ F, w ≠ [] ∧ ∀ c ∈ w, isSpace c = false) :
    Fields (Join F [' ']) = F := by
  induction F with
  | nil => rfl
  | cons w ws ih =>
    have hw := hF w (by simp)
    cases ws with
    | nil =>
      have := fieldsAux_word [] w [] hw.2
      simp only [List.append_nil] at this
      simp [Join, Fields, this, fieldsAux, hw.1]
    | cons v vs =>
      have ih2 := ih (fun x hx => hF x (by simp [hx]))
      unfold Fields at ih2 ⊢
      have hsp : isSpace ' ' = true := by decide
      simp only [Join, List.append_assoc, List.singleton_append]
      rw [fieldsAux_word [] w _ hw.2]
      simp only [List.append_nil, fieldsAux, hsp, if_true, List.reverse_eq_nil_iff, hw.1,
        if_false, List.reverse_reverse, ih2]

theorem Join_Fields_idem (s : List Char) :
    Join (Fields (Join (Fields s) [' '])) [' '] = Join (Fields s) [' '] := by
  rw [Fields_Join _ (Fields_wf s)]

/-! ### Trimming -/

theorem rdropWhile_append_spaces (y w : List Char) (hw : ∀ c ∈ w, isSpace c = true) :
    List.rdropWhile isSpace (y ++ w) = List.rdropWhile isSpace y := by
  unfold List.rdropWhile
  rw [List.reverse_append, List.dropWhile_append_of_pos]
  intro a ha
  exact hw a (List.mem_reverse.1 ha)

/-- White space around a text does not change what `strings.TrimSpace` returns. -/
theorem TrimSpace_spaces_append (w1 x w2 : List Char) (h1 : ∀ c ∈ w1, isSpace c = true)
    (h2 : ∀ c ∈ w2, isSpace c = true) : TrimSpace (w1 ++ x ++ w2) = TrimSpace x := by
  show List.rdropWhile isSpace ((w1 ++ x ++ w2).dropWhile isSpace) =
    List.rdropWhile isSpace (x.dropWhile isSpace)
  rw [List.append_assoc, List.dropWhile_append_of_pos h1, List.dropWhile_append]
  by_cases hx : (x.dropWhile isSpace).isEmpty = true
  · have hx2 : x.dropWhile isSpace = [] := by simpa using hx
    have hw : w2.dropWhile isSpace = [] := by
      rw [List.dropWhile_eq_nil_iff]; exact h2
    simp [hx2, hw]
  · simp only [hx, Bool.false_eq_true, if_false]
    exact rdropWhile_append_spaces _ w2 h2

/-- A text is its trimmed form with white space before and after. -/
theorem TrimSpace_decomp (s : List Char) :
    ∃ w1 w2 : List Char, (∀ c ∈ w1, isSpace c = true) ∧ (∀ c ∈ w2, isSpace c = true) ∧
      s = w1 ++ TrimSpace s ++ w2 := by
  refine ⟨s.takeWhile isSpace, ((s.dropWhile isSpace).reverse.takeWhile isSpace).reverse,
    fun c hc => List.mem_takeWhile_imp hc,
    fun c hc => List.mem_takeWhile_imp (List.mem_reverse.1 hc), ?_⟩
  unfold TrimSpace
  rw [List.append_assoc, ← List.reverse_append, List.takeWhile_append_dropWhile,
    List.reverse_reverse, List.takeWhile_append_dropWhile]

theorem Fields_TrimSpace (s : List Char) : Fields (TrimSpace s) = Fields s := by
  obtain ⟨w1, w2, h1, h2, hs⟩ := TrimSpace_decomp s
  conv_rhs => rw [hs]
  rw [Fields_append_spaces _ _ h2, Fields_spaces_append _ _ h1]

/-! ### Index -/

theorem Index_eq_none_iff (s : List Char) (c : Char) : Index s c = none ↔ c ∉ s := by
  induction s with
  | nil => simp [Index]
  | cons x xs ih =>
    by_cases h : x = c
    · simp [Index, h]
    · have h2 : ¬ c = x := fun e => h e.symm
      simp [Index, h, h2, ih]

theorem Index_append_left (w s : List Char) (c : Char) (hc : c ∉ w) :
    Index (w ++ s) c = (Index s c).map (· + w.length) := by
  induction w with
  | nil => simp
  | cons x xs ih =>
    have hx : ¬ x = c := fun e => hc (by simp [e])
    have := ih (fun h => hc (by simp [h]))
    simp only [List.cons_append, Index, hx, if_false, List.append_eq, this, Option.map_map,
      List.length_cons]
    cases Index s c <;> simp [Nat.add_assoc]

theorem Index_append_right (s w : List Char) (c : Char) (hc : c ∉ w) :
    Index (s ++ w) c = Index s c := by
  induction s with
  | nil =>
    simp only [List.nil_append, Index]
    exact (Index_eq_none_iff w c).2 hc
  | cons x xs ih =>
    simp only [List.cons_append, Index, List.append_eq, ih]

/-- The index found splits the text at the first occurrence. -/
theorem Index_split (s : List Char) (c : Char) (i : Nat) (h : Index s c = some i) :
    c ∉ s.take i ∧ s = s.take i ++ c :: s.drop (i + 1) := by
  induction s generalizing i with
  | nil => simp [Index] at h
  | cons x xs ih =>
    by_cases hx : x = c
    · simp only [Index, hx, if_true, Option.some.injEq] at h
      subst h
      simp [hx]
    · simp only [Index, hx, if_false, Option.map_eq_some'] at h
      obtain ⟨j, hj, rfl⟩ := h
      have := ih j hj
      have hx2 : ¬ c = x := fun e => hx e.symm
      refine ⟨by simp [hx2, this.1], ?_⟩
      simp only [List.take_succ_cons, List.drop_succ_cons, List.cons_append]
      exact congrArg (x :: ·) this.2

theorem Index_of_split (a b : List Char) (c : Char) (hc : c ∉ a) :
    Index (a ++ c :: b) c = some a.length := by
  rw [Index_append_left a _ c hc]
  simp [Index]

end strings

/-! ## Theorems: hwutils -/

namespace hwinfo

open strings

theorem Index_lt (s : List Char) (c : Char) (i : Nat) (h : Index s c = some i) :
    i < s.length := by
  have h2 := (Index_split s c i h).2
  by_contra hlt
  have hlen := congrArg List.length h2
  simp only [List.length_append, List.length_cons, List.length_take, List.length_drop] at hlen
  omega

theorem not_mem_spaces (w : List Char) (c : Char) (hc : isSpace c = false)
    (hw : ∀ d ∈ w, isSpace d = true) : c ∉ w := by
  intro h
  have := hw c h
  rw [hc] at this
  exact absurd this (by simp)

theorem Index_spaces (w1 u w2 : List Char) (c : Char) (hc : isSpace c = false)
    (h1 : ∀ d ∈ w1, isSpace d = true) (h2 : ∀ d ∈ w2, isSpace d = true) :
    Index (w1 ++ u ++ w2) c = (Index u c).map (· + w1.length) := by
  rw [Index_append_right _ w2 c (not_mem_spaces w2 c hc h2),
    Index_append_left w1 u c (not_mem_spaces w1 c hc h1)]

theorem take_drop_spaces (w1 u w2 : List Char) (i j : Nat) (hi : i ≤ u.length)
    (hj : j + 1 ≤ u.length) :
    (w1 ++ u ++ w2).take (i + w1.length) ++ (w1 ++ u ++ w2).drop (j + 1 + w1.length) =
      w1 ++ (u.take i ++ u.drop (j + 1)) ++ w2 := by
  have e1 : (w1 ++ u ++ w2).take (i + w1.length) = w1 ++ u.take i := by
    rw [List.append_assoc, add_comm, List.take_append, List.take_append_of_le_length hi]
  have e2 : (w1 ++ u ++ w2).drop (j + 1 + w1.length) = u.drop (j + 1) ++ w2 := by
    rw [List.append_assoc, add_comm, List.drop_append, List.drop_append_of_le_length hj]
  rw [e1, e2]
  simp

/-- White space around the text does not change the fields that the loop of
`reformat` leaves. -/
theorem reformatLoop_spaces (n : Nat) (w1 u w2 : List Char)
    (h1 : ∀ d ∈ w1, isSpace d = true) (h2 : ∀ d ∈ w2, isSpace d = true) :
    Fields (reformatLoop n (w1 ++ u ++ w2)) = Fields (reformatLoop n u) := by
  induction n with
  | zero =>
    simp only [reformatLoop]
    rw [Fields_append_spaces _ _ h2, Fields_spaces_append _ _ h1]
  | succ n ih =>
    have ho := Index_spaces w1 u w2 '(' (by decide) h1 h2
    have hc := Index_spaces w1 u w2 ')' (by decide) h1 h2
    simp only [reformatLoop, ho, hc]
    cases hi : Index u '(' with
    | none =>
      simp only [Option.map_none']
      rw [Fields_append_spaces _ _ h2, Fields_spaces_append _ _ h1]
    | some i =>
      cases hj : Index u ')' with
      | none =>
        simp only [Option.map_some', Option.map_none']
        exact ih
      | some j =>
        simp only [Option.map_some']
        have hi2 := Index_lt u _ i hi
        have hj2 := Index_lt u _ j hj
        have e : j + w1.length + 1 = j + 1 + w1.length := by omega
        rw [e, take_drop_spaces w1 u w2 i j (by omega) (by omega),
          TrimSpace_spaces_append _ _ _ h1 h2]

/-- Trimming the text first does not change the fields the loop leaves. -/
theorem reformatLoop_TrimSpace (n : Nat) (s : List Char) :
    Fields (reformatLoop n (TrimSpace s)) = Fields (reformatLoop n s) := by
  obtain ⟨w1, w2, h1, h2, hs⟩ := TrimSpace_decomp s
  conv_rhs => rw [hs]
  rw [reformatLoop_spaces n w1 _ w2 h1 h2]

theorem reformat_TrimSpace (s : List Char) : reformat (TrimSpace s) = reformat s := by
  unfold reformat
  rw [reformatLoop_TrimSpace]

theorem reformat_spaces (w1 u w2 : List Char)
    (h1 : ∀ d ∈ w1, isSpace d = true) (h2 : ∀ d ∈ w2, isSpace d = true) :
    reformat (w1 ++ u ++ w2) = reformat u := by
  unfold reformat
  rw [reformatLoop_spaces 100 w1 u w2 h1 h2]

/-! ### The joined fields are whitespace-normalized -/

theorem Join_ne_nil (w : List Char) (ws : List (List Char)) (hw : w ≠ []) :
    Join (w :: ws) [' '] ≠ [] := by
  cases ws with
  | nil => simpa [Join] using hw
  | cons v vs => simp [Join, hw]

theorem Join_head (F : List (List Char))
    (hF : ∀ w ∈ F, w ≠ [] ∧ ∀ c ∈ w, isSpace c = false) :
    ∀ c ∈ (Join F [' ']).head?, isSpace c = false := by
  intro c hc
  cases F with
  | nil => simp [Join] at hc
  | cons w ws =>
    obtain ⟨hne, hsp⟩ := hF w (by simp)
    obtain ⟨x, xs, rfl⟩ := List.exists_cons_of_ne_nil hne
    have : c = x := by
      cases ws with
      | nil => simpa [Join] using hc.symm
      | cons v vs => simpa [Join] using hc.symm
    rw [this]
    exact hsp x (by simp)

theorem Join_getLast (F : List (List Char))
    (hF : ∀ w ∈ F, w ≠ [] ∧ ∀ c ∈ w, isSpace c = false) :
    ∀ c ∈ (Join F [' ']).getLast?, isSpace c = false := by
  induction F with
  | nil => intro c hc; simp [Join] at hc
  | cons w ws ih =>
    intro c hc
    cases ws with
    | nil =>
      simp only [Join] at hc
      exact (hF w (by simp)).2 c (List.mem_of_getLast?_eq_some hc)
    | cons v vs =>
      simp only [Join] at hc
      rw [List.getLast?_append_of_ne_nil _
        (Join_ne_nil v vs (hF v (by simp)).1)] at hc
      exact ih (fun x hx => hF x (by simp [hx])) c hc

theorem Join_mem (F : List (List Char)) (c : Char) (hc : c ∈ Join F [' ']) :
    c = ' ' ∨ ∃ w ∈ F, c ∈ w := by
  induction F with
  | nil => simp [Join] at hc
  | cons w ws ih =>
    cases ws with
    | nil =>
      simp only [Join] at hc
      exact Or.inr ⟨w, by simp, hc⟩
    | cons v vs =>
      simp only [Join, List.append_assoc, List.singleton_append, List.mem_append,
        List.mem_cons] at hc
      rcases hc with h | h | h
      · exact Or.inr ⟨w, by simp, h⟩
      · exact Or.inl h
      · rcases ih h with h | ⟨x, hx, hcx⟩
        · exact Or.inl h
        · exact Or.inr ⟨x, by simp [hx], hcx⟩

theorem chain_word (w : List Char) (hw : ∀ c ∈ w, isSpace c = false) :
    List.Chain' (fun a b : Char => ¬ (a = ' ' ∧ b = ' ')) w := by
  induction w with
  | nil => exact List.chain'_nil
  | cons x xs ih =>
    refine List.Chain'.cons' (ih (fun c hc => hw c (by simp [hc]))) ?_
    intro y _ h
    have := hw x (by simp)
    rw [h.1] at this
    exact absurd this (by decide)

theorem Join_chain (F : List (List Char))
    (hF : ∀ w ∈ F, w ≠ [] ∧ ∀ c ∈ w, isSpace c = false) :
    List.Chain' (fun a b : Char => ¬ (a = ' ' ∧ b = ' ')) (Join F [' ']) := by
  induction F with
  | nil => exact List.chain'_nil
  | cons w ws ih =>
    cases ws with
    | nil => exact chain_word w (hF w (by simp)).2
    | cons v vs =>
      have hrest : ∀ x ∈ v :: vs, x ≠ [] ∧ ∀ c ∈ x, isSpace c = false :=
        fun x hx => hF x (by simp [List.mem_cons.1 hx])
      have hsp : ∀ c : Char, isSpace c = false → c ≠ ' ' := by
        intro c hc h
        rw [h] at hc
        exact absurd hc (by decide)
      simp only [Join, List.append_assoc, List.singleton_append]
      refine List.Chain'.append (chain_word w (hF w (by simp)).2) ?_ ?_
      · refine List.Chain'.cons' (ih hrest) ?_
        intro y hy h
        exact hsp y (Join_head _ hrest y hy) h.2
      · intro x hx y _ h
        exact hsp x ((hF w (by simp)).2 x (List.mem_of_getLast?_eq_some hx)) h.1

/-- The joined fields of any text are whitespace-normalized. -/
theorem Join_Fields_normalized (s : List Char) :
    WhitespaceNormalized (Join (Fields s) [' ']) := by
  refine ⟨Join_head _ (Fields_wf s), Join_getLast _ (Fields_wf s), ?_, ?_⟩
  · intro c hc hsp
    rcases Join_mem _ c hc with h | ⟨w, hw, hcw⟩
    · exact h
    · have := (Fields_wf s w hw).2 c hcw
      rw [hsp] at this
      exact absurd this (by simp)
  · intro h
    have := List.Chain'.infix (Join_chain _ (Fields_wf s)) h
    simp at this

theorem TrimSpace_Join_Fields (s : List Char) :
    TrimSpace (Join (Fields s) [' ']) = Join (Fields s) [' '] :=
  byteunit.TrimSpace_eq_self _ (Join_head _ (Fields_wf s)) (Join_getLast _ (Fields_wf s))

theorem TrimSpace_reformat (s : List Char) : TrimSpace (reformat s) = reformat s :=
  TrimSpace_Join_Fields _

theorem reformat_normalized (s : List Char) : WhitespaceNormalized (reformat s) :=
  Join_Fields_normalized _

/-! ### The shape of `getKeyValue` -/

theorem take_spaces (w1 u w2 : List Char) (i : Nat) (hi : i ≤ u.length) :
    (w1 ++ u ++ w2).take (i + w1.length) = w1 ++ u.take i := by
  rw [List.append_assoc, add_comm, List.take_append, List.take_append_of_le_length hi]

theorem drop_spaces (w1 u w2 : List Char) (j : Nat) (hj : j ≤ u.length) :
    (w1 ++ u ++ w2).drop (j + w1.length) = u.drop j ++ w2 := by
  rw [List.append_assoc, add_comm, List.drop_append, List.drop_append_of_le_length hj]

/-- What `getKeyValue` returns: the two parts of the line around its first `:`,
each through `reformat`; the pair of empty texts when there is no `:`. The
separator argument plays no part. -/
theorem getKeyValue_eq (line sep : List Char) :
    getKeyValue line sep =
      match Index line ':' with
      | none => ([], [])
      | some k => (reformat (line.take k), reformat (line.drop (k + 1))) := by
  obtain ⟨w1, w2, h1, h2, hs⟩ := TrimSpace_decomp line
  have hidx : Index line ':' = (Index (TrimSpace line) ':').map (· + w1.length) := by
    conv_lhs => rw [hs]
    exact Index_spaces w1 _ w2 ':' (by decide) h1 h2
  rw [hidx]
  unfold getKeyValue SplitN2
  cases hi : Index (TrimSpace line) ':' with
  | none => simp [hi]
  | some i =>
    have hlt := Index_lt _ _ i hi
    have e1 : line.take (i + w1.length) = w1 ++ (TrimSpace line).take i ++ [] := by
      conv_lhs => rw [hs]
      rw [take_spaces w1 _ w2 i (by omega)]
      simp
    have e2 : line.drop (i + w1.length + 1) = [] ++ (TrimSpace line).drop (i + 1) ++ w2 := by
      conv_lhs => rw [hs]
      have : i + w1.length + 1 = (i + 1) + w1.length := by omega
      rw [this, drop_spaces w1 _ w2 (i + 1) (by omega)]
      simp
    simp only [hi, List.map_cons, List.map_nil, TrimSpace_reformat, Option.map_some', e1, e2]
    rw [reformat_spaces w1 _ [] h1 (by simp), reformat_spaces [] _ w2 (by simp) h2]

theorem getKeyValue_of_colon (a b sep : List Char) (ha : ':' ∉ a) :
    getKeyValue (a ++ ':' :: b) sep = (reformat a, reformat b) := by
  rw [getKeyValue_eq, Index_of_split a b ':' ha]
  simp

theorem getKeyValue_no_colon (line sep : List Char) (h : ':' ∉ line) :
    getKeyValue line sep = ([], []) := by
  rw [getKeyValue_eq, (Index_eq_none_iff line ':').2 h]

/-! ### Passes of the loop -/

theorem reformatLoop_no_open (n : Nat) (s : List Char) (h : '(' ∉ s) :
    reformatLoop n s = s := by
  cases n with
  | zero => rfl
  | succ n => simp only [reformatLoop, (Index_eq_none_iff s '(').2 h]

theorem reformatLoop_no_close (n : Nat) (s : List Char) (h : ')' ∉ s) :
    reformatLoop n s = s := by
  induction n with
  | zero => rfl
  | succ n ih =>
    simp only [reformatLoop, (Index_eq_none_iff s ')').2 h]
    cases Index s '(' with
    | none => rfl
    | some i => exact ih

/-- One pass on a text whose first `(` comes before its first `)`: the
parenthetical is cut out. -/
theorem reformatLoop_pass (n : Nat) (A B D : List Char) (hA1 : '(' ∉ A) (hA2 : ')' ∉ A)
    (hB : ')' ∉ B) :
    reformatLoop (n + 1) (A ++ '(' :: (B ++ ')' :: D)) =
      reformatLoop n (TrimSpace (A ++ D)) := by
  have ho : Index (A ++ '(' :: (B ++ ')' :: D)) '(' = some A.length :=
    Index_of_split A _ '(' hA1
  have hsplit : A ++ '(' :: (B ++ ')' :: D) = (A ++ '(' :: B) ++ ')' :: D := by simp
  have hc : Index (A ++ '(' :: (B ++ ')' :: D)) ')' = some (A ++ '(' :: B).length := by
    rw [hsplit]
    apply Index_of_split
    simp only [List.mem_append, List.mem_cons, not_or]
    exact ⟨hA2, by decide, hB⟩
  have e1 : (A ++ '(' :: (B ++ ')' :: D)).take A.length = A := by simp
  have e2 : (A ++ '(' :: (B ++ ')' :: D)).drop ((A ++ '(' :: B).length + 1) = D := by
    rw [hsplit]
    have : (A ++ '(' :: B ++ ')' :: D) = (A ++ '(' :: B ++ [')']) ++ D := by simp
    rw [this]
    have hlen : (A ++ '(' :: B).length + 1 = (A ++ '(' :: B ++ [')']).length := by
      simp only [List.length_append, List.length_cons, List.length_nil]
    rw [hlen, List.drop_left]
  simp only [reformatLoop, ho, hc, e1, e2]

theorem Fields_reformatLoop_pass (n : Nat) (A B D : List Char) (hA1 : '(' ∉ A)
    (hA2 : ')' ∉ A) (hB : ')' ∉ B) :
    Fields (reformatLoop (n + 1) (A ++ '(' :: (B ++ ')' :: D))) =
      Fields (reformatLoop n (A ++ D)) := by
  rw [reformatLoop_pass n A B D hA1 hA2 hB, reformatLoop_TrimSpace]

/-! ### Reading the parentheses of a text -/

theorem closesAll_append_plain (A X : List Char) (h1 : '(' ∉ A) (h2 : ')' ∉ A) :
    closesAll false (A ++ X) = closesAll false X := by
  induction A with
  | nil => rfl
  | cons c cs ih =>
    have hc1 : ¬ c = '(' := fun e => h1 (by simp [e])
    have hc2 : ¬ c = ')' := fun e => h2 (by simp [e])
    simp only [List.cons_append, closesAll, hc1, hc2, if_false]
    exact ih (fun h => h1 (by simp [h])) (fun h => h2 (by simp [h]))

theorem closesAll_open_decomp (s : List Char) (h : closesAll false s = true)
    (ho : '(' ∈ s) :
    ∃ A rest, s = A ++ '(' :: rest ∧ '(' ∉ A ∧ ')' ∉ A ∧ closesAll true rest = true := by
  induction s with
  | nil => simp at ho
  | cons c cs ih =>
    by_cases hc2 : c = ')'
    · simp [closesAll, hc2] at h
    by_cases hc1 : c = '('
    · subst hc1
      refine ⟨[], cs, rfl, by simp, by simp, ?_⟩
      simpa [closesAll] using h
    · simp only [closesAll, hc1, hc2, if_false] at h
      have ho2 : '(' ∈ cs := by
        rcases List.mem_cons.1 ho with e | e
        · exact absurd e.symm hc1
        · exact e
      obtain ⟨A, rest, hs, hA1, hA2, hr⟩ := ih h ho2
      refine ⟨c :: A, rest, by simp [hs], ?_, ?_, hr⟩
      · simp only [List.mem_cons, not_or]
        exact ⟨fun e => hc1 e.symm, hA1⟩
      · simp only [List.mem_cons, not_or]
        exact ⟨fun e => hc2 e.symm, hA2⟩

theorem closesAll_close_decomp (rest : List Char) (h : closesAll true rest = true)
    (hc : ')' ∈ rest) :
    ∃ B D, rest = B ++ ')' :: D ∧ ')' ∉ B ∧ closesAll false D = true := by
  induction rest with
  | nil => simp at hc
  | cons c cs ih =>
    by_cases hc2 : c = ')'
    · subst hc2
      refine ⟨[], cs, rfl, by simp, ?_⟩
      simpa [closesAll] using h
    · simp only [closesAll, hc2, if_false] at h
      have hc3 : ')' ∈ cs := by
        rcases List.mem_cons.1 hc with e | e
        · exact absurd e.symm hc2
        · exact e
      obtain ⟨B, D, hs, hB, hD⟩ := ih h hc3
      refine ⟨c :: B, D, by simp [hs], ?_, hD⟩
      simp only [List.mem_cons, not_or]
      exact ⟨fun e => hc2 e.symm, hB⟩

theorem closesAll_no_open (s : List Char) (h : closesAll false s = true) (ho : '(' ∉ s) :
    ')' ∉ s := by
  induction s with
  | nil => simp
  | cons c cs ih =>
    by_cases hc2 : c = ')'
    · simp [closesAll, hc2] at h
    have hc1 : ¬ c = '(' := fun e => ho (by simp [e])
    simp only [closesAll, hc1, hc2, if_false] at h
    simp only [List.mem_cons, not_or]
    exact ⟨fun e => hc2 e.symm, ih h (fun e => ho (by simp [e]))⟩

theorem stripParens_append_plain (A X : List Char) (h1 : '(' ∉ A) :
    stripParens false (A ++ X) = A ++ stripParens false X := by
  induction A with
  | nil => rfl
  | cons c cs ih =>
    have hc1 : ¬ c = '(' := fun e => h1 (by simp [e])
    simp only [List.cons_append, stripParens, hc1, if_false]
    exact congrArg (c :: ·) (ih (fun h => h1 (by simp [h])))

theorem stripParens_inside (B D : List Char) (hB : ')' ∉ B) :
    stripParens true (B ++ ')' :: D) = stripParens false D := by
  induction B with
  | nil => simp [stripParens]
  | cons c cs ih =>
    have hc2 : ¬ c = ')' := fun e => hB (by simp [e])
    simp only [List.cons_append, stripParens, hc2, if_false]
    exact ih (fun h => hB (by simp [h]))

theorem stripParens_plain (s : List Char) (h : '(' ∉ s) : stripParens false s = s := by
  have := stripParens_append_plain s [] h
  simpa [stripParens] using this

theorem flatParens_append_plain (A X : List Char) (h1 : '(' ∉ A) (h2 : ')' ∉ A) :
    flatParens false (A ++ X) = flatParens false X := by
  induction A with
  | nil => rfl
  | cons c cs ih =>
    have hc1 : ¬ c = '(' := fun e => h1 (by simp [e])
    have hc2 : ¬ c = ')' := fun e => h2 (by simp [e])
    simp only [List.cons_append, flatParens, hc1, hc2, if_false]
    exact ih (fun h => h1 (by simp [h])) (fun h => h2 (by simp [h]))

theorem flatParens_open_decomp (s : List Char) (h : flatParens false s = true)
    (ho : '(' ∈ s) :
    ∃ A rest, s = A ++ '(' :: rest ∧ '(' ∉ A ∧ ')' ∉ A ∧ flatParens true rest = true := by
  induction s with
  | nil => simp at ho
  | cons c cs ih =>
    by_cases hc2 : c = ')'
    · simp [flatParens, hc2] at h
    by_cases hc1 : c = '('
    · subst hc1
      refine ⟨[], cs, rfl, by simp, by simp, ?_⟩
      simpa [flatParens] using h
    · simp only [flatParens, hc1, hc2, if_false] at h
      have ho2 : '(' ∈ cs := by
        rcases List.mem_cons.1 ho with e | e
        · exact absurd e.symm hc1
        · exact e
      obtain ⟨A, rest, hs, hA1, hA2, hr⟩ := ih h ho2
      refine ⟨c :: A, rest, by simp [hs], ?_, ?_, hr⟩
      · simp only [List.mem_cons, not_or]
        exact ⟨fun e => hc1 e.symm, hA1⟩
      · simp only [List.mem_cons, not_or]
        exact ⟨fun e => hc2 e.symm, hA2⟩

theorem flatParens_close_decomp (rest : List Char) (h : flatParens true rest = true) :
    ∃ B D, rest = B ++ ')' :: D ∧ '(' ∉ B ∧ ')' ∉ B ∧ flatParens false D = true := by
  induction rest with
  | nil => simp [flatParens] at h
  | cons c cs ih =>
    by_cases hc1 : c = '('
    · simp [flatParens, hc1] at h
    by_cases hc2 : c = ')'
    · subst hc2
      refine ⟨[], cs, rfl, by simp, by simp, ?_⟩
      simpa [flatParens] using h
    · simp only [flatParens, hc1, hc2, if_false] at h
      obtain ⟨B, D, hs, hB1, hB2, hD⟩ := ih h
      refine ⟨c :: B, D, by simp [hs], ?_, ?_, hD⟩
      · simp only [List.mem_cons, not_or]
        exact ⟨fun e => hc1 e.symm, hB1⟩
      · simp only [List.mem_cons, not_or]
        exact ⟨fun e => hc2 e.symm, hB2⟩

theorem flatParens_closesAll (b : Bool) (s : List Char) (h : flatParens b s = true) :
    closesAll b s = true := by
  induction s generalizing b with
  | nil => cases b <;> rfl
  | cons c cs ih =>
    cases b with
    | false =>
      by_cases hc2 : c = ')'
      · simp [flatParens, hc2] at h
      by_cases hc1 : c = '('
      · simp only [flatParens, closesAll, hc1, hc2, if_true] at h ⊢
        exact ih true (by simpa using h)
      · simp only [flatParens, closesAll, hc1, hc2, if_false] at h ⊢
        exact ih false h
    | true =>
      by_cases hc1 : c = '('
      · simp [flatParens, hc1] at h
      by_cases hc2 : c = ')'
      · simp only [flatParens, closesAll, hc1, hc2, if_true, if_false] at h ⊢
        exact ih false h
      · simp only [flatParens, closesAll, hc1, hc2, if_false] at h ⊢
        exact ih true h

/-! ### What the loop leaves -/

theorem mem_of_mem_fieldsAux (cur s w : List Char) (c : Char) (hw : w ∈ fieldsAux cur s)
    (hc : c ∈ w) : c ∈ cur ∨ c ∈ s := by
  induction s generalizing cur with
  | nil =>
    by_cases h : cur = []
    · simp [fieldsAux, h] at hw
    · simp only [fieldsAux, h, if_false, List.mem_singleton] at hw
      subst hw
      exact Or.inl (by simpa using hc)
  | cons x xs ih =>
    by_cases hx : isSpace x = true
    · by_cases h : cur = []
      · simp only [fieldsAux, hx, h, if_true] at hw
        rcases ih [] hw with h1 | h1
        · simp at h1
        · exact Or.inr (by simp [h1])
      · simp only [fieldsAux, hx, h, if_true, if_false, List.mem_cons] at hw
        rcases hw with rfl | hw
        · exact Or.inl (by simpa using hc)
        · rcases ih [] hw with h1 | h1
          · simp at h1
          · exact Or.inr (by simp [h1])
    · simp only [fieldsAux, hx] at hw
      rcases ih (x :: cur) hw with h1 | h1
      · rcases List.mem_cons.1 h1 with e | e
        · exact Or.inr (by simp [e])
        · exact Or.inl e
      · exact Or.inr (by simp [h1])

theorem mem_of_mem_Fields (s w : List Char) (c : Char) (hw : w ∈ Fields s) (hc : c ∈ w) :
    c ∈ s := by
  rcases mem_of_mem_fieldsAux [] s w c hw hc with h | h
  · simp at h
  · exact h

theorem count_close_pass (A B D : List Char) (hA : ')' ∉ A) (hB : ')' ∉ B) :
    (A ++ '(' :: (B ++ ')' :: D)).count ')' = (A ++ D).count ')' + 1 := by
  simp [List.count_append, List.count_cons, List.count_eq_zero_of_not_mem hA,
    List.count_eq_zero_of_not_mem hB]

theorem count_open_pass (A B D : List Char) (hA : '(' ∉ A) (hB : '(' ∉ B) :
    (A ++ '(' :: (B ++ ')' :: D)).count '(' = (A ++ D).count '(' + 1 := by
  simp [List.count_append, List.count_cons, List.count_eq_zero_of_not_mem hA,
    List.count_eq_zero_of_not_mem hB]

/-- When every `)` closes a parenthetical and there are at most `n` of them, `n`
passes leave no `)`. -/
theorem no_close_after_loop (n : Nat) (s : List Char) (h : closesAll false s = true)
    (hn : s.count ')' ≤ n) : ∀ w ∈ Fields (reformatLoop n s), ')' ∉ w := by
  induction n generalizing s with
  | zero =>
    intro w hw hc
    have h0 : ')' ∉ s := List.count_eq_zero.1 (by omega)
    exact h0 (mem_of_mem_Fields s w _ hw hc)
  | succ n ih =>
    by_cases ho : '(' ∈ s
    · obtain ⟨A, rest, hs, hA1, hA2, hr⟩ := closesAll_open_decomp s h ho
      by_cases hc : ')' ∈ rest
      · obtain ⟨B, D, hrest, hB, hD⟩ := closesAll_close_decomp rest hr hc
        subst hrest
        subst hs
        rw [Fields_reformatLoop_pass n A B D hA1 hA2 hB]
        apply ih
        · rw [closesAll_append_plain A D hA1 hA2]
          exact hD
        · rw [count_close_pass A B D hA2 hB] at hn
          omega
      · have h0 : ')' ∉ s := by
          rw [hs]
          simp only [List.mem_append, List.mem_cons, not_or]
          exact ⟨hA2, by decide, hc⟩
        intro w hw hcw
        rw [reformatLoop_no_close _ s h0] at hw
        exact h0 (mem_of_mem_Fields s w _ hw hcw)
    · intro w hw hcw
      rw [reformatLoop_no_open _ s ho] at hw
      exact closesAll_no_open s h ho (mem_of_mem_Fields s w _ hw hcw)

/-- On a text whose parentheses form at most `n` balanced pairs that are not
nested, `n` passes leave the fields of the text outside the pairs. -/
theorem reformatLoop_flat (n : Nat) (s : List Char) (h : flatParens false s = true)
    (hn : s.count '(' ≤ n) :
    Fields (reformatLoop n s) = Fields (stripParens false s) := by
  induction n generalizing s with
  | zero =>
    have h0 : '(' ∉ s := List.count_eq_zero.1 (by omega)
    rw [stripParens_plain s h0]
    rfl
  | succ n ih =>
    by_cases ho : '(' ∈ s
    · obtain ⟨A, rest, hs, hA1, hA2, hr⟩ := flatParens_open_decomp s h ho
      obtain ⟨B, D, hrest, hB1, hB2, hD⟩ := flatParens_close_decomp rest hr
      subst hrest
      subst hs
      rw [Fields_reformatLoop_pass n A B D hA1 hA2 hB2, stripParens_append_plain _ _ hA1]
      simp only [stripParens, if_true]
      rw [stripParens_inside B D hB2, ← stripParens_append_plain _ _ hA1]
      apply ih
      · rw [flatParens_append_plain A D hA1 hA2]
        exact hD
      · rw [count_open_pass A B D hA1 hB1] at hn
        omega
    · rw [reformatLoop_no_open _ s ho, stripParens_plain s ho]

theorem reformat_flat (s : List Char) (h : flatParens false s = true)
    (hn : s.count '(' ≤ 100) :
    reformat s = Join (Fields (stripParens false s)) [' '] := by
  unfold reformat
  rw [reformatLoop_flat 100 s h hn]
  rfl

theorem reformat_no_close (s : List Char) (h : closesAll false s = true)
    (hn : s.count ')' ≤ 100) : ')' ∉ reformat s := by
  intro hc
  rcases Join_mem _ _ hc with h1 | ⟨w, hw, hcw⟩
  · exact absurd h1 (by decide)
  · exact no_close_after_loop 100 s h hn w hw hcw

/-- Without a `)` in its result, `reformat` applied again changes nothing. -/
theorem reformat_idem (s : List Char) (h : ')' ∉ reformat s) :
    reformat (reformat s) = reformat s := by
  have e : reformat (reformat s) =
      Join (Fields (reformatLoop 100 (reformat s))) " ".toList := rfl
  rw [e, reformatLoop_no_close 100 _ h]
  exact Join_Fields_idem (reformatLoop 100 s)

/-! ### Joined fields and the whitespace normal form -/

theorem rdropWhile_cons (p : Char → Bool) (x : Char) (X : List Char) :
    List.rdropWhile p (x :: X) =
      if List.rdropWhile p X = [] then (if p x = true then [] else [x])
      else x :: List.rdropWhile p X := by
  unfold List.rdropWhile
  rw [List.reverse_cons, List.dropWhile_append]
  by_cases h : List.dropWhile p X.reverse = []
  · by_cases hx : p x = true <;> simp [h, hx]
  · simp [h]

theorem fieldsAux_ne_nil (cur s : List Char) (h : cur ≠ []) : fieldsAux cur s ≠ [] := by
  induction s generalizing cur with
  | nil => simp [fieldsAux, h]
  | cons c cs ih =>
    by_cases hc : isSpace c = true
    · simp [fieldsAux, hc, h]
    · simp only [fieldsAux, hc]
      exact ih (c :: cur) (by simp)

theorem Join_cons_of_ne_nil (w : List Char) (F : List (List Char)) (hF : F ≠ []) :
    Join (w :: F) [' '] = w ++ ' ' :: Join F [' '] := by
  cases F with
  | nil => exact absurd rfl hF
  | cons v vs => simp [Join]

theorem collapseSpaces_cons_nonspace (c : Char) (cs : List Char) (hc : isSpace c = false) :
    collapseSpaces (c :: cs) = c :: collapseSpaces cs := by
  simp [collapseSpaces, hc]

theorem fieldsAux_cons_space (cur : List Char) (c : Char) (cs : List Char)
    (hc : isSpace c = true) :
    fieldsAux cur (c :: cs) =
      if cur = [] then fieldsAux [] cs else cur.reverse :: fieldsAux [] cs := by
  simp only [fieldsAux, hc, if_true]

theorem Join_fieldsAux (cur s : List Char) :
    Join (fieldsAux cur s) [' '] =
      cur.reverse ++ List.rdropWhile isSpace
        (if cur = [] then (collapseSpaces s).dropWhile isSpace else collapseSpaces s) := by
  induction s generalizing cur with
  | nil =>
    by_cases h : cur = []
    · simp [fieldsAux, h, Join, collapseSpaces]
    · simp [fieldsAux, h, Join, collapseSpaces]
  | cons c cs ih =>
    by_cases hc : isSpace c = true
    · cases cs with
      | nil =>
        have hsp : isSpace ' ' = true := by decide
        by_cases h : cur = []
        · simp [fieldsAux, hc, h, Join, collapseSpaces, hsp]
        · simp [fieldsAux, hc, h, Join, collapseSpaces, hsp, List.rdropWhile_singleton]
      | cons d ds =>
        by_cases hd : isSpace d = true
        · have e1 : fieldsAux cur (c :: d :: ds) = fieldsAux cur (d :: ds) := by
            by_cases h : cur = [] <;> simp [fieldsAux, hc, hd, h]
          have e2 : collapseSpaces (c :: d :: ds) = collapseSpaces (d :: ds) := by
            simp [collapseSpaces, hc, hd]
          rw [e1, e2]
          exact ih cur
        · have hd2 : isSpace d = false := by simpa using hd
          have hsp : isSpace ' ' = true := by decide
          have e2 : collapseSpaces (c :: d :: ds) = ' ' :: d :: collapseSpaces ds := by
            simp [collapseSpaces, hc, hd2]
          have e3 : collapseSpaces (d :: ds) = d :: collapseSpaces ds :=
            collapseSpaces_cons_nonspace d ds hd2
          have ih0 := ih []
          simp only [if_true, List.reverse_nil, List.nil_append, e3, List.dropWhile_cons, hd2,
            Bool.false_eq_true, if_false] at ih0
          have hne : List.rdropWhile isSpace (d :: collapseSpaces ds) ≠ [] := by
            rw [rdropWhile_cons]
            by_cases h : List.rdropWhile isSpace (collapseSpaces ds) = [] <;> simp [h, hd2]
          rw [fieldsAux_cons_space cur c _ hc]
          by_cases h : cur = []
          · simp only [h, if_true, e2, List.dropWhile_cons, hsp, hd2,
              Bool.false_eq_true, if_false, List.reverse_nil, List.nil_append]
            exact ih0
          · have hF : fieldsAux [] (d :: ds) ≠ [] := by
              simp only [fieldsAux, hd2, Bool.false_eq_true, if_false]
              exact fieldsAux_ne_nil [d] ds (by simp)
            simp only [h, if_false, e2]
            rw [Join_cons_of_ne_nil _ _ hF, ih0, rdropWhile_cons isSpace ' ']
            simp only [hne, if_false]
    · have hc2 : isSpace c = false := by simpa using hc
      have ih1 := ih (c :: cur)
      simp only [List.cons_ne_nil, if_false, List.reverse_cons, List.append_assoc,
        List.singleton_append] at ih1
      simp only [fieldsAux, hc2, Bool.false_eq_true, if_false, ih1,
        collapseSpaces_cons_nonspace c cs hc2, List.dropWhile_cons, ite_self]
      rw [rdropWhile_cons]
      by_cases h : List.rdropWhile isSpace (collapseSpaces cs) = [] <;> simp [h, hc2]

/-- The joined fields of a text are its whitespace normal form. -/
theorem Join_Fields_eq_normalizeSpaces (s : List Char) :
    Join (Fields s) [' '] = normalizeSpaces s := by
  have := Join_fieldsAux [] s
  simpa [Fields, normalizeSpaces, TrimSpace, List.rdropWhile] using this

/-! ### The characters of the result -/

theorem TrimSpace_subset (s : List Char) (c : Char) (h : c ∈ TrimSpace s) : c ∈ s := by
  have h1 : List.Sublist (List.rdropWhile isSpace (s.dropWhile isSpace)) s :=
    (List.rdropWhile_prefix isSpace _).sublist.trans (List.dropWhile_sublist _)
  exact h1.subset h

theorem mem_reformatLoop (n : Nat) (s : List Char) (c : Char) (h : c ∈ reformatLoop n s) :
    c ∈ s := by
  induction n generalizing s with
  | zero => exact h
  | succ n ih =>
    simp only [reformatLoop] at h
    cases hi : Index s '(' with
    | none => simpa [hi] using h
    | some i =>
      cases hj : Index s ')' with
      | none =>
        simp only [hi, hj] at h
        exact ih s h
      | some j =>
        simp only [hi, hj] at h
        have := TrimSpace_subset _ c (ih _ h)
        rcases List.mem_append.1 this with h1 | h1
        · exact List.mem_of_mem_take h1
        · exact List.mem_of_mem_drop h1

theorem mem_reformat (s : List Char) (c : Char) (h : c ∈ reformat s) : c = ' ' ∨ c ∈ s := by
  rcases Join_mem _ _ h with h1 | ⟨w, hw, hcw⟩
  · exact Or.inl h1
  · exact Or.inr (mem_reformatLoop 100 s c (mem_of_mem_Fields _ w c hw hcw))


/-- When in both parts of the line every `)` closes a parenthetical and there are
at most 100 of them, the pair returned is `reformat` of two texts, the first
without `:`, and neither result holds a `)`. -/
theorem getKeyValue_closed (line sep : List Char)
    (h : ∀ p ∈ SplitN2 line ':', closesAll false p = true ∧ p.count ')' ≤ 100) :
    ∃ a b, getKeyValue line sep = (reformat a, reformat b) ∧ ':' ∉ a ∧
      ')' ∉ reformat a ∧ ')' ∉ reformat b := by
  rw [getKeyValue_eq]
  cases hi : Index line ':' with
  | none =>
    have e : reformat [] = [] := by decide
    refine ⟨[], [], by simp [e], by simp, by decide, by decide⟩
  | some k =>
    have hsplit : SplitN2 line ':' = [line.take k, line.drop (k + 1)] := by
      simp [SplitN2, hi]
    have ha := h (line.take k) (by simp [hsplit])
    have hb := h (line.drop (k + 1)) (by simp [hsplit])
    exact ⟨line.take k, line.drop (k + 1), rfl, (Index_split line ':' k hi).1,
      reformat_no_close _ ha.1 ha.2, reformat_no_close _ hb.1 hb.2⟩


/-! ### C6: field lines -/

/-- C6: for a line `<label><spaces>:<spaces><value>` whose label has no `:` and
where the parentheses of the label and of the value form balanced pairs that are
not nested, at most 100 in each, `getKeyValue` returns the label and the value
with the parenthetical substrings removed and the white space normalized. -/
theorem getKeyValue_field_line (label value : List Char) (a b : Nat)
    (hcolon : ':' ∉ label)
    (hl : flatParens false label = true) (hv : flatParens false value = true)
    (hln : label.count '(' ≤ 100) (hvn : value.count '(' ≤ 100) :
    getKeyValue (label ++ List.replicate a ' ' ++ ':' :: (List.replicate b ' ' ++ value))
        ":".toList =
      (normalizeSpaces (stripParens false label), normalizeSpaces (stripParens false value)) := by
  have hsp : ∀ n : Nat, ∀ d ∈ List.replicate n ' ', isSpace d = true := by
    intro n d hd
    rw [List.eq_of_mem_replicate hd]
    decide
  have hc : ':' ∉ label ++ List.replicate a ' ' := by
    simp only [List.mem_append, not_or]
    refine ⟨hcolon, fun h => ?_⟩
    exact absurd (List.eq_of_mem_replicate h) (by decide)
  rw [getKeyValue_of_colon _ _ _ hc]
  have e1 : reformat (label ++ List.replicate a ' ') = reformat label := by
    have := reformat_spaces [] label (List.replicate a ' ') (by simp) (hsp a)
    simpa using this
  have e2 : reformat (List.replicate b ' ' ++ value) = reformat value := by
    have := reformat_spaces (List.replicate b ' ') value [] (hsp b) (by simp)
    simpa using this
  rw [e1, e2, reformat_flat label hl hln, reformat_flat value hv hvn,
    Join_Fields_eq_normalizeSpaces, Join_Fields_eq_normalizeSpaces]

set_option maxRecDepth 100000 in
/-- C6 at the line `"Size:   4096 MB (No ECC)"`. -/
theorem getKeyValue_field_line_witness :
    getKeyValue "Size:   4096 MB (No ECC)".toList ":".toList =
      ("Size".toList, "4096 MB".toList) :=
  (getKeyValue_field_line "Size".toList "4096 MB (No ECC)".toList 0 3 (by decide) (by decide)
    (by decide) (by decide) (by decide)).trans (by decide)

/-! ### C7: the separator -/

/-- C7: `getKeyValue` never looks at its separator argument and always splits at
`:`; so `"a=b"` with separator `=` gives the empty pair and `"a:b"` with
separator `=` is split. -/
theorem getKeyValue_ignores_sep :
    (∀ line sep sep1 : List Char, getKeyValue line sep = getKeyValue line sep1) ∧
    getKeyValue "a=b".toList "=".toList = ([], []) ∧
    getKeyValue "a:b".toList "=".toList = ("a".toList, "b".toList) :=
  ⟨fun _ _ _ => rfl, by decide, by decide⟩

/-! ### C8: idempotence -/

set_option maxRecDepth 1000000 in
/-- C8, as stated, fails: with 101 pairs `()` after the colon the value returned
is `"()"`, the pair the 100 passes did not reach, and `reformat` of it is empty. -/
theorem getKeyValue_not_idempotent :
    getKeyValue ("a:".toList ++ (List.replicate 101 ['(', ')']).flatten) ":".toList =
      ("a".toList, "()".toList) ∧
    reformat "()".toList = [] ∧
    getKeyValue "a:()".toList ":".toList = ("a".toList, []) := by
  decide

/-- C8, amended: for every line in whose parts (before and after the first `:`)
every `)` closes a parenthetical and there are at most 100 of them, normalizing
the output again changes nothing: with `(k, v) = getKeyValue line ":"`,
`reformat k = k`, `reformat v = v` and `getKeyValue (k ++ ":" ++ v) ":" = (k, v)`. -/
theorem getKeyValue_idempotent (line : List Char)
    (h : ∀ p ∈ SplitN2 line ':', closesAll false p = true ∧ p.count ')' ≤ 100) :
    reformat (getKeyValue line ":".toList).1 = (getKeyValue line ":".toList).1 ∧
    reformat (getKeyValue line ":".toList).2 = (getKeyValue line ":".toList).2 ∧
    getKeyValue ((getKeyValue line ":".toList).1 ++ ":".toList ++
        (getKeyValue line ":".toList).2) ":".toList = getKeyValue line ":".toList := by
  obtain ⟨a, b, hkv, hcolon, ha, hb⟩ := getKeyValue_closed line ":".toList h
  rw [hkv]
  have hc : ':' ∉ reformat a := by
    intro hmem
    rcases mem_reformat a ':' hmem with h1 | h1
    · exact absurd h1 (by decide)
    · exact hcolon h1
  refine ⟨reformat_idem a ha, reformat_idem b hb, ?_⟩
  have e : reformat a ++ ":".toList ++ reformat b = reformat a ++ ':' :: reformat b := by
    simp
  simp only [e]
  rw [getKeyValue_of_colon _ _ _ hc, reformat_idem a ha, reformat_idem b hb]

set_option maxRecDepth 100000 in
/-- C8, amended, at the line `"Size:   4096 MB (No ECC)"`. -/
theorem getKeyValue_idempotent_witness :
    reformat (getKeyValue "Size:   4096 MB (No ECC)".toList ":".toList).1 =
      (getKeyValue "Size:   4096 MB (No ECC)".toList ":".toList).1 ∧
    reformat (getKeyValue "Size:   4096 MB (No ECC)".toList ":".toList).2 =
      (getKeyValue "Size:   4096 MB (No ECC)".toList ":".toList).2 ∧
    getKeyValue ((getKeyValue "Size:   4096 MB (No ECC)".toList ":".toList).1 ++ ":".toList ++
        (getKeyValue "Size:   4096 MB (No ECC)".toList ":".toList).2) ":".toList =
      getKeyValue "Size:   4096 MB (No ECC)".toList ":".toList :=
  getKeyValue_idempotent "Size:   4096 MB (No ECC)".toList (by decide)

/-! ### C9: parentheticals -/

set_option maxRecDepth 1000000 in
/-- C9, as stated, fails: with 101 pairs `()` after the colon the value returned
is `"()"`; and after `"a:)()"`, where a `)` comes first, the value is `")()"`. -/
theorem getKeyValue_keeps_parenthetical :
    List.Sublist ['(', ')']
      (getKeyValue ("a:".toList ++ (List.replicate 101 ['(', ')']).flatten) ":".toList).2 ∧
    List.Sublist ['(', ')'] (getKeyValue "a:)()".toList ":".toList).2 := by
  decide

/-- C9, amended: for every line in whose parts (before and after the first `:`)
every `)` closes a parenthetical and there are at most 100 of them, neither the
key nor the value returned contains a `(` followed later by a `)`. -/
theorem getKeyValue_no_parenthetical (line : List Char)
    (h : ∀ p ∈ SplitN2 line ':', closesAll false p = true ∧ p.count ')' ≤ 100) :
    ¬ List.Sublist ['(', ')'] (getKeyValue line ":".toList).1 ∧
    ¬ List.Sublist ['(', ')'] (getKeyValue line ":".toList).2 := by
  obtain ⟨a, b, hkv, _, ha, hb⟩ := getKeyValue_closed line ":".toList h
  rw [hkv]
  exact ⟨fun hs => ha (hs.subset (by simp)), fun hs => hb (hs.subset (by simp))⟩

set_option maxRecDepth 100000 in
/-- C9, amended, at a line with parentheticals in both parts. -/
theorem getKeyValue_no_parenthetical_witness :
    ¬ List.Sublist ['(', ')']
      (getKeyValue "Speed (max) : 3 GHz (turbo (x)".toList ":".toList).1 ∧
    ¬ List.Sublist ['(', ')']
      (getKeyValue "Speed (max) : 3 GHz (turbo (x)".toList ":".toList).2 :=
  getKeyValue_no_parenthetical "Speed (max) : 3 GHz (turbo (x)".toList (by decide)

/-! ### C10: whitespace -/

/-- C10: for every line, the key and the value that `getKeyValue` returns are
whitespace-normalized: no white space at either end, no white space character
other than the space, no two spaces in a row. -/
theorem getKeyValue_normalized (line : List Char) :
    WhitespaceNormalized (getKeyValue line ":".toList).1 ∧
    WhitespaceNormalized (getKeyValue line ":".toList).2 := by
  have hnil : WhitespaceNormalized [] := by
    refine ⟨by simp, by simp, by simp, ?_⟩
    intro h
    have := h.length_le
    simp at this
  rw [getKeyValue_eq]
  cases Index line ':' with
  | none => exact ⟨hnil, hnil⟩
  | some k => exact ⟨reformat_normalized _, reformat_normalized _⟩

end hwinfo

namespace hwinfo

open strings

/-! ### C11: the empty pair, with the bound on the length of a string -/

/-- When the bounded loop returns, it returns what `reformatLoop` returns. -/
theorem reformatLoopMem_some (maxLen n : Nat) (s r : List Char)
    (h : reformatLoopMem maxLen n s = some r) : r = reformatLoop n s := by
  induction n generalizing s with
  | zero =>
    simp only [reformatLoopMem, Option.some.injEq] at h
    simp only [reformatLoop, h]
  | succ n ih =>
    simp only [reformatLoopMem, reformatLoop] at h ⊢
    cases hi : Index s '(' with
    | none =>
      simp only [hi, Option.some.injEq] at h ⊢
      exact h.symm
    | some i =>
      cases hj : Index s ')' with
      | none =>
        simp only [hi, hj] at h ⊢
        exact ih s h
      | some j =>
        simp only [hi, hj] at h ⊢
        by_cases hl : (s.take i ++ s.drop (j + 1)).length ≤ maxLen
        · rw [if_pos hl] at h
          exact ih _ h
        · rw [if_neg hl] at h
          exact absurd h (by simp)

theorem reformatMem_some (maxLen : Nat) (s r : List Char)
    (h : reformatMem maxLen s = some r) : r = reformat s := by
  unfold reformatMem at h
  cases hq : reformatLoopMem maxLen 100 s with
  | none => rw [hq] at h; exact absurd h (by simp)
  | some q =>
    rw [hq] at h
    simp only [Option.some.injEq] at h
    rw [← h, reformatLoopMem_some maxLen 100 s q hq]
    rfl

theorem reformatAll_some (maxLen : Nat) (ps qs : List (List Char))
    (h : reformatAll maxLen ps = some qs) : qs = ps.map reformat := by
  induction ps generalizing qs with
  | nil =>
    simp only [reformatAll, Option.some.injEq] at h
    rw [← h]
    rfl
  | cons p ps ih =>
    simp only [reformatAll] at h
    cases hq : reformatMem maxLen p with
    | none => rw [hq] at h; exact absurd h (by simp)
    | some q =>
      cases hr : reformatAll maxLen ps with
      | none => rw [hq, hr] at h; exact absurd h (by simp)
      | some rs =>
        rw [hq, hr] at h
        simp only [Option.some.injEq] at h
        rw [← h, List.map_cons, ← reformatMem_some maxLen p q hq, ← ih rs hr]

/-- When the bounded `getKeyValue` returns, it returns what `getKeyValue` returns. -/
theorem getKeyValueMem_some (maxLen : Nat) (line sep : List Char)
    (r : List Char × List Char) (h : getKeyValueMem maxLen line sep = some r) :
    r = getKeyValue line sep := by
  unfold getKeyValueMem at h
  cases hq : reformatAll maxLen (SplitN2 (TrimSpace line) ':') with
  | none => simp only [hq] at h; exact absurd h (by simp)
  | some kv =>
    have hkv := reformatAll_some maxLen _ kv hq
    simp only [hq] at h
    unfold getKeyValue
    simp only [← hkv]
    split at h <;> simp only [Option.some.injEq] at h <;> rw [← h]

theorem closesAll_plain (st : Bool) (w : List Char) (h1 : '(' ∉ w) (h2 : ')' ∉ w) :
    closesAll st w = true := by
  induction w generalizing st with
  | nil => cases st <;> rfl
  | cons c cs ih =>
    have hc1 : ¬ c = '(' := fun e => h1 (by simp [e])
    have hc2 : ¬ c = ')' := fun e => h2 (by simp [e])
    have i1 : '(' ∉ cs := fun h => h1 (by simp [h])
    have i2 : ')' ∉ cs := fun h => h2 (by simp [h])
    cases st
    · simp only [closesAll, hc1, hc2, if_false]
      exact ih false i1 i2
    · simp only [closesAll, hc2, if_false]
      exact ih true i1 i2

theorem closesAll_append_plain_right (st : Bool) (X w : List Char) (h1 : '(' ∉ w)
    (h2 : ')' ∉ w) : closesAll st (X ++ w) = closesAll st X := by
  induction X generalizing st with
  | nil =>
    rw [List.nil_append, closesAll_plain st w h1 h2]
    cases st <;> rfl
  | cons c cs ih =>
    cases st
    · by_cases hc2 : c = ')'
      · simp only [List.cons_append, closesAll, hc2, if_true]
      · by_cases hc1 : c = '('
        · simp only [List.cons_append, closesAll, hc1, if_true]
          rw [if_neg (by decide), if_neg (by decide)]
          exact ih true
        · simp only [List.cons_append, closesAll, hc1, hc2, if_false]
          exact ih false
    · by_cases hc2 : c = ')'
      · simp only [List.cons_append, closesAll, hc2, if_true]
        exact ih false
      · simp only [List.cons_append, closesAll, hc2, if_false]
        exact ih true

theorem closesAll_TrimSpace (s : List Char) :
    closesAll false (TrimSpace s) = closesAll false s := by
  obtain ⟨w1, w2, h1, h2, hs⟩ := TrimSpace_decomp s
  conv_rhs => rw [hs]
  rw [closesAll_append_plain_right false _ w2 (not_mem_spaces w2 '(' (by decide) h2)
      (not_mem_spaces w2 ')' (by decide) h2),
    closesAll_append_plain w1 _ (not_mem_spaces w1 '(' (by decide) h1)
      (not_mem_spaces w1 ')' (by decide) h1)]

theorem length_TrimSpace_le (s : List Char) : (TrimSpace s).length ≤ s.length := by
  obtain ⟨w1, w2, _, _, hs⟩ := TrimSpace_decomp s
  conv_rhs => rw [hs]
  simp only [List.length_append]
  omega

theorem reformatLoopMem_pass (maxLen n : Nat) (A B D : List Char) (hA1 : '(' ∉ A)
    (hA2 : ')' ∉ A) (hB : ')' ∉ B) :
    reformatLoopMem maxLen (n + 1) (A ++ '(' :: (B ++ ')' :: D)) =
      if (A ++ D).length ≤ maxLen then reformatLoopMem maxLen n (TrimSpace (A ++ D))
      else none := by
  have ho : Index (A ++ '(' :: (B ++ ')' :: D)) '(' = some A.length :=
    Index_of_split A _ '(' hA1
  have hsplit : A ++ '(' :: (B ++ ')' :: D) = (A ++ '(' :: B) ++ ')' :: D := by simp
  have hc : Index (A ++ '(' :: (B ++ ')' :: D)) ')' = some (A ++ '(' :: B).length := by
    rw [hsplit]
    apply Index_of_split
    simp only [List.mem_append, List.mem_cons, not_or]
    exact ⟨hA2, by decide, hB⟩
  have e1 : (A ++ '(' :: (B ++ ')' :: D)).take A.length = A := by simp
  have e2 : (A ++ '(' :: (B ++ ')' :: D)).drop ((A ++ '(' :: B).length + 1) = D := by
    rw [hsplit]
    have e : (A ++ '(' :: B ++ ')' :: D) = (A ++ '(' :: B ++ [')']) ++ D := by simp
    rw [e]
    have hlen : (A ++ '(' :: B).length + 1 = (A ++ '(' :: B ++ [')']).length := by
      simp only [List.length_append, List.length_cons, List.length_nil]
    rw [hlen, List.drop_left]
  simp only [reformatLoopMem, ho, hc, e1, e2]

/-- When every `)` closes a parenthetical, no pass makes the text longer, so the
bounded loop returns on every text that fits. -/
theorem reformatLoopMem_closed (maxLen n : Nat) (s : List Char)
    (h : closesAll false s = true) (hl : s.length ≤ maxLen) :
    reformatLoopMem maxLen n s = some (reformatLoop n s) := by
  induction n generalizing s with
  | zero => rfl
  | succ n ih =>
    by_cases ho : '(' ∈ s
    · obtain ⟨A, rest, hs, hA1, hA2, hr⟩ := closesAll_open_decomp s h ho
      by_cases hc : ')' ∈ rest
      · obtain ⟨B, D, hrest, hB, hD⟩ := closesAll_close_decomp rest hr hc
        subst hrest
        subst hs
        have hlen : (A ++ D).length ≤ maxLen := by
          simp only [List.length_append, List.length_cons] at hl ⊢
          omega
        rw [reformatLoopMem_pass maxLen n A B D hA1 hA2 hB, if_pos hlen,
          reformatLoop_pass n A B D hA1 hA2 hB]
        apply ih
        · rw [closesAll_TrimSpace, closesAll_append_plain A D hA1 hA2]
          exact hD
        · exact le_trans (length_TrimSpace_le _) hlen
      · have hnc : ')' ∉ s := by
          rw [hs]
          simp only [List.mem_append, List.mem_cons, not_or]
          exact ⟨hA2, by decide, hc⟩
        have hi : Index s '(' = some A.length := by
          rw [hs]
          exact Index_of_split A rest '(' hA1
        simp only [reformatLoopMem, reformatLoop, hi, (Index_eq_none_iff s ')').2 hnc]
        exact ih s h hl
    · simp only [reformatLoopMem, reformatLoop, (Index_eq_none_iff s '(').2 ho]

theorem reformatAll_closed (maxLen : Nat) (ps : List (List Char))
    (h : ∀ p ∈ ps, closesAll false p = true ∧ p.length ≤ maxLen) :
    reformatAll maxLen ps = some (ps.map reformat) := by
  induction ps with
  | nil => rfl
  | cons p ps ih =>
    obtain ⟨h1, h2⟩ := h p (List.mem_cons_self _ _)
    have hp : reformatMem maxLen p = some (reformat p) := by
      simp only [reformatMem, reformatLoopMem_closed maxLen 100 p h1 h2]
      rfl
    simp only [reformatAll, hp, ih (fun q hq => h q (List.mem_cons_of_mem _ hq)),
      List.map_cons]

/-- The bounded `getKeyValue` returns, and returns what `getKeyValue` returns, on
every line whose parts fit and have every `)` closing a parenthetical. -/
theorem getKeyValueMem_closed (maxLen : Nat) (line sep : List Char)
    (h : ∀ p ∈ SplitN2 (TrimSpace line) ':', closesAll false p = true ∧ p.length ≤ maxLen) :
    getKeyValueMem maxLen line sep = some (getKeyValue line sep) := by
  have hq := reformatAll_closed maxLen _ h
  unfold getKeyValueMem getKeyValue
  simp only [hq]
  split <;> rfl

/-- The empty pair, on a machine with bounded strings: for every line without a
`:` that fits and in which every `)` closes a parenthetical, `getKeyValue`
returns the pair of empty texts. -/
theorem getKeyValueMem_empty_pair (maxLen : Nat) (line : List Char) (h : ':' ∉ line)
    (hc : closesAll false line = true) (hl : line.length ≤ maxLen) :
    getKeyValueMem maxLen line ":".toList = some ([], []) := by
  have hi : Index (TrimSpace line) ':' = none :=
    (Index_eq_none_iff _ ':').2 (fun e => h (TrimSpace_subset line ':' e))
  rw [getKeyValueMem_closed maxLen line _ (by
    intro p hp
    simp only [SplitN2, hi, List.mem_singleton] at hp
    subst hp
    exact ⟨by rw [closesAll_TrimSpace]; exact hc, le_trans (length_TrimSpace_le _) hl⟩),
    getKeyValue_no_colon line _ h]

/-- One bounded pass on `)x…x(` with `m` letters: `i` is the index of the `(` at
the end and `j = 0`, so `str[:i] + str[j+1:]` has `m + m + 2` characters. -/
theorem reformatLoopMem_pass_grows (maxLen n m : Nat) :
    reformatLoopMem maxLen (n + 1) (')' :: (List.replicate m 'x' ++ ['('])) =
      if m + m + 2 ≤ maxLen then
        reformatLoopMem maxLen n (')' :: (List.replicate (m + m) 'x' ++ ['(']))
      else none := by
  have hi : Index (')' :: (List.replicate m 'x' ++ ['('])) '(' = some (m + 1) := by
    have h := Index_of_split (')' :: List.replicate m 'x') [] '('
      (by simp [List.mem_replicate])
    simpa using h
  have hj : Index (')' :: (List.replicate m 'x' ++ ['('])) ')' = some 0 := by
    simp [Index]
  have hcat : (')' :: (List.replicate m 'x' ++ ['('])).take (m + 1) ++
      (')' :: (List.replicate m 'x' ++ ['('])).drop (0 + 1) =
      ')' :: (List.replicate (m + m) 'x' ++ ['(']) := by
    rw [List.take_succ_cons, List.take_left' (by simp)]
    show ')' :: List.replicate m 'x' ++ (List.replicate m 'x' ++ ['(']) = _
    rw [List.cons_append, ← List.append_assoc, List.append_replicate_replicate]
  have htrim : TrimSpace (')' :: (List.replicate (m + m) 'x' ++ ['('])) =
      ')' :: (List.replicate (m + m) 'x' ++ ['(']) :=
    byteunit.TrimSpace_eq_self _ (by simp [isSpace])
      (by
        rw [← List.cons_append, List.getLast?_append]
        simp [isSpace])
  have hlen : (')' :: (List.replicate (m + m) 'x' ++ ['('])).length = m + m + 2 := by
    simp only [List.length_cons, List.length_append, List.length_replicate, List.length_nil]
  simp only [reformatLoopMem, hi, hj]
  rw [hcat, htrim, hlen]

/-- The bounded loop on `)x…x(` ends the program when the text it would reach
does not fit. -/
theorem reformatLoopMem_aborts (maxLen n m : Nat) (h : maxLen < m * 2 ^ (n + 1) + 2) :
    reformatLoopMem maxLen (n + 1) (')' :: (List.replicate m 'x' ++ ['('])) = none := by
  induction n generalizing m with
  | zero =>
    rw [reformatLoopMem_pass_grows, if_neg (by omega)]
  | succ k ih =>
    rw [reformatLoopMem_pass_grows]
    by_cases hl : m + m + 2 ≤ maxLen
    · rw [if_pos hl]
      apply ih
      have e : (m + m) * 2 ^ (k + 1) = m * 2 ^ (k + 1 + 1) := by ring
      rw [e]
      exact h
    · rw [if_neg hl]

theorem getKeyValueMem_close_first (maxLen : Nat) (h : maxLen < 2 ^ 100 + 2) :
    getKeyValueMem maxLen ")x(".toList ":".toList = none := by
  have ht : TrimSpace ")x(".toList = ")x(".toList := by decide
  have hs : SplitN2 ")x(".toList ':' = [")x(".toList] := by decide
  have e : ")x(".toList = ')' :: (List.replicate 1 'x' ++ ['(']) := rfl
  have hr : reformatLoopMem maxLen 100 ")x(".toList = none := by
    rw [e]
    exact reformatLoopMem_aborts maxLen 99 1 (by omega)
  simp only [getKeyValueMem, ht, hs, reformatAll, reformatMem, hr]

/-- C11 fails in the code: `getKeyValue` reformats the parts before it tests
`len(kv) != 2`, and on the line `")x("`, which has no `:`, the text of
`reformat` doubles at each pass; on every machine whose strings hold fewer than
`2 ^ 100 + 2` bytes the program ends there and no pair is returned. -/
theorem getKeyValueMem_aborts (maxLen : Nat) (h : maxLen < 2 ^ 100 + 2) :
    ':' ∉ ")x(".toList ∧ getKeyValueMem maxLen ")x(".toList ":".toList = none :=
  ⟨by decide, getKeyValueMem_close_first maxLen h⟩

/-- C11 fails in the code, at strings of at most `2 ^ 63 - 1` bytes, the largest
length an `int` of 64 bits can hold. -/
theorem getKeyValueMem_aborts_witness :
    2 ^ 63 - 1 < 2 ^ 100 + 2 ∧ ':' ∉ ")x(".toList ∧
      getKeyValueMem (2 ^ 63 - 1) ")x(".toList ":".toList = none :=
  ⟨by decide, getKeyValueMem_aborts (2 ^ 63 - 1) (by decide)⟩

end hwinfo

/-! ## Theorems: hwinfo.go -/

namespace hwinfo

open strings

/-! ### Loops over lines -/

/-- The merge loop from any state: it appends the records whose `PhysicalId`
differs from the one before, `last` standing before the first. -/
theorem foldl_mergeStep (l : List CPUInfo) (acc : List CPUInfo) (last : Int) :
    (l.foldl mergeStep (acc, last)).1 =
      acc ++ (List.zip (last :: l.map (fun x => x.PhysicalId)) l).filterMap
        (fun p => if p.1 = p.2.PhysicalId then none else some p.2) := by
  induction l generalizing acc last with
  | nil => simp
  | cons c cs ih =>
    by_cases h : c.PhysicalId = last
    · subst h
      have h1 : mergeStep (acc, c.PhysicalId) c = (acc, c.PhysicalId) := by simp [mergeStep]
      simp only [List.foldl_cons, h1, ih, List.map_cons, List.zip_cons_cons,
        List.filterMap_cons, if_true]
    · have h1 : mergeStep (acc, last) c = (acc ++ [c], c.PhysicalId) := by
        simp [mergeStep, h]
      have h2 : ¬ last = c.PhysicalId := fun e => h e.symm
      simp only [List.foldl_cons, h1, ih, List.map_cons, List.zip_cons_cons,
        List.filterMap_cons, h2, if_false, List.append_assoc, List.singleton_append]

theorem mergePass_cons (c : CPUInfo) (cs : List CPUInfo) (h : c.PhysicalId ≠ -1) :
    mergePass (c :: cs) = runFirsts (c :: cs) := by
  have h2 : ¬ (-1 : Int) = c.PhysicalId := fun e => h e.symm
  simp only [mergePass, foldl_mergeStep, List.nil_append, List.map_cons, List.zip_cons_cons,
    List.filterMap_cons, h2, if_false, runFirsts]

theorem mem_runFirsts_id (l : List CPUInfo) (last : Int) (c : CPUInfo) (hc : c ∈ l) :
    c.PhysicalId = last ∨
      ∃ d ∈ (List.zip (last :: l.map (fun x => x.PhysicalId)) l).filterMap
        (fun p => if p.1 = p.2.PhysicalId then none else some p.2),
        d.PhysicalId = c.PhysicalId := by
  induction l generalizing last with
  | nil => simp at hc
  | cons x xs ih =>
    simp only [List.map_cons, List.zip_cons_cons, List.filterMap_cons]
    by_cases h : last = x.PhysicalId
    · simp only [h, if_true]
      rcases List.mem_cons.1 hc with e | e
      · exact Or.inl (by rw [e])
      · exact ih x.PhysicalId e
    · simp only [h, if_false, List.mem_cons]
      rcases List.mem_cons.1 hc with e | e
      · exact Or.inr ⟨x, Or.inl rfl, by rw [e]⟩
      · rcases ih x.PhysicalId e with h1 | ⟨d, hd, hid⟩
        · exact Or.inr ⟨x, Or.inl rfl, h1.symm⟩
        · exact Or.inr ⟨d, Or.inr hd, hid⟩

/-- C13, as stated, fails: `lastPhyId` starts at `-1`, so a first run of records
whose `PhysicalId` is `-1` is dropped. -/
theorem mergePass_drops_minus_one :
    mergePass [⟨0, [], GHz.zero, -1, 0, 0⟩] = [] ∧
    mergePass [⟨0, [], GHz.zero, -1, 0, 0⟩, ⟨0, [], GHz.zero, 0, 0, 0⟩] =
      [⟨0, [], GHz.zero, 0, 0, 0⟩] := by
  decide

/-- C13, amended: for every sequence of records whose first record does not have
`PhysicalId = -1`, the merge pass of `ListCPUInfo` returns exactly the first
record of each maximal run of consecutive records with equal `PhysicalId`, in the
order of the runs, and every `PhysicalId` of the input is in the output. -/
theorem mergePass_eq_runFirsts (cpus : List CPUInfo)
    (h : ∀ c ∈ cpus.head?, c.PhysicalId ≠ -1) :
    mergePass cpus = runFirsts cpus ∧
    ∀ c ∈ cpus, ∃ d ∈ mergePass cpus, d.PhysicalId = c.PhysicalId := by
  cases cpus with
  | nil => exact ⟨rfl, by simp⟩
  | cons x xs =>
    have hx : x.PhysicalId ≠ -1 := h x (by simp)
    refine ⟨mergePass_cons x xs hx, ?_⟩
    intro c hc
    rw [mergePass_cons x xs hx]
    simp only [runFirsts, List.map_cons, List.zip_cons_cons, List.mem_cons]
    rcases List.mem_cons.1 hc with e | e
    · exact ⟨x, Or.inl rfl, by rw [e]⟩
    · rcases mem_runFirsts_id xs x.PhysicalId c e with h1 | ⟨d, hd, hid⟩
      · exact ⟨x, Or.inl rfl, h1.symm⟩
      · exact ⟨d, Or.inr hd, hid⟩

/-- C13, amended, at four records with `PhysicalId` 0 followed by four with
`PhysicalId` 1: two records, the first of each run. -/
theorem mergePass_eq_runFirsts_witness :
    mergePass
      [⟨0, "a".toList, GHz.zero, 0, 0, 0⟩, ⟨0, "b".toList, GHz.zero, 0, 0, 0⟩,
       ⟨0, "c".toList, GHz.zero, 0, 0, 0⟩, ⟨0, "d".toList, GHz.zero, 0, 0, 0⟩,
       ⟨0, "e".toList, GHz.zero, 1, 0, 0⟩, ⟨0, "f".toList, GHz.zero, 1, 0, 0⟩,
       ⟨0, "g".toList, GHz.zero, 1, 0, 0⟩, ⟨0, "h".toList, GHz.zero, 1, 0, 0⟩] =
      [⟨0, "a".toList, GHz.zero, 0, 0, 0⟩, ⟨0, "e".toList, GHz.zero, 1, 0, 0⟩] :=
  (mergePass_eq_runFirsts _ (by decide)).1.trans (by decide)

end hwinfo

namespace byteunit

open strings strconv

/-! ### C14: the forced-unit display -/

/-- C14: the divisor of `Size.Format` is `2 << (10 * unit)`, twice the magnitude
of the unit: whatever renders the number, `Format` of 2048 in `kB` renders 1 (not
2) and `Format` of 1 in bytes renders `1/2` (not 1). -/
theorem Size.Format_divides_by_twice (fmtG : ℚ → List Char) :
    Size.Format fmtG 2048 1 = some (fmtG 1 ++ " kB".toList) ∧
    Size.Format fmtG 1 0 = some (fmtG (1 / 2) ++ " byte".toList) := by
  have h1 : roundDecimal 2048 0 = some (F64.finite (2048 * 2 ^ 41) (-41)) := by decide
  have h2 : roundDecimal 1 0 = some (F64.finite (2 ^ 52) (-52)) := by decide
  have n1 : (2048 : Int).natAbs = 2048 := rfl
  have n2 : (1 : Int).natAbs = 1 := rfl
  have e1 : float64OfInt 2048 = 2048 := by
    unfold float64OfInt
    rw [n1, h1]
    norm_num
  have e2 : float64OfInt 1 = 1 := by
    unfold float64OfInt
    rw [n2, h2]
    norm_num
  constructor
  · simp only [Size.Format, e1, units, List.length_cons, List.length_nil]
    norm_num
  · simp only [Size.Format, e2, units, List.length_cons, List.length_nil]
    norm_num

/-! ### C15: the panic of `Parse` -/

/-- On a text of letters only the pattern matches with an empty number, which
the number parser rejects: `Parse` panics. -/
theorem Parse_letters (unit : List Char) (hu : unit ≠ [])
    (hul : ∀ c ∈ unit, isLetter c = true) : Parse unit = ParseResult.panicked := by
  have hre := re_token [] [] unit 0 (by simp) (by simp) hu hul
  simp only [numberToken, if_true, List.replicate_zero, List.nil_append] at hre
  have htrim : TrimSpace unit = unit :=
    TrimSpace_eq_self unit
      (fun c hc => isSpace_of_isLetter c (hul c (List.mem_of_mem_head? hc)))
      (fun c hc => isSpace_of_isLetter c (hul c (List.mem_of_getLast?_eq_some hc)))
  have hzero : unit ≠ "0".toList := by
    intro h
    have := hul '0' (by rw [h]; decide)
    exact absurd this (by decide)
  have hpf : ParseFloat [] = none := by decide
  unfold Parse
  simp only [htrim, hzero, if_false, hre, hpf]

set_option maxRecDepth 1000000 in
set_option exponentiation.threshold 2000 in
/-- C15: the panic is reached. On `"MB"` the pattern `re` matches and captures an
empty number, which `strconv.ParseFloat` rejects; on a number of 310 digits
followed by `MB` the number is out of the range of `float64`, which
`strconv.ParseFloat` reports as an error too. -/
theorem Parse_reaches_panic :
    re "MB".toList = some ([], "MB".toList) ∧
    ParseFloat [] = none ∧
    Parse "MB".toList = ParseResult.panicked ∧
    Parse ('1' :: List.replicate 309 '0' ++ " MB".toList) = ParseResult.panicked := by
  decide

end byteunit

namespace hwinfo

open strings

/-! ### C16: strip then split, split then strip -/

theorem flatParens_append (st : Bool) (a X : List Char) (h : flatParens st a = true) :
    flatParens st (a ++ X) = flatParens false X := by
  induction a generalizing st with
  | nil =>
    cases st with
    | false => rfl
    | true => simp [flatParens] at h
  | cons c cs ih =>
    cases st with
    | false =>
      by_cases hc2 : c = ')'
      · simp [flatParens, hc2] at h
      by_cases hc1 : c = '('
      · simp only [flatParens, hc1, hc2, if_true, List.cons_append] at h ⊢
        exact ih true (by simpa using h)
      · simp only [flatParens, hc1, hc2, if_false, List.cons_append] at h ⊢
        exact ih false h
    | true =>
      by_cases hc1 : c = '('
      · simp [flatParens, hc1] at h
      by_cases hc2 : c = ')'
      · simp only [flatParens, hc1, hc2, if_true, if_false, List.cons_append] at h ⊢
        exact ih false h
      · simp only [flatParens, hc1, hc2, if_false, List.cons_append] at h ⊢
        exact ih true h

theorem stripParens_append_flat (st : Bool) (a X : List Char) (h : flatParens st a = true) :
    stripParens st (a ++ X) = stripParens st a ++ stripParens false X := by
  induction a generalizing st with
  | nil =>
    cases st with
    | false => simp [stripParens]
    | true => simp [flatParens] at h
  | cons c cs ih =>
    cases st with
    | false =>
      by_cases hc2 : c = ')'
      · simp [flatParens, hc2] at h
      by_cases hc1 : c = '('
      · simp only [flatParens, stripParens, hc1, hc2, if_true, List.cons_append] at h ⊢
        exact ih true (by simpa using h)
      · simp only [flatParens, stripParens, hc1, hc2, if_false, List.cons_append] at h ⊢
        exact congrArg (c :: ·) (ih false h)
    | true =>
      by_cases hc1 : c = '('
      · simp [flatParens, hc1] at h
      by_cases hc2 : c = ')'
      · simp only [flatParens, stripParens, hc1, hc2, if_true, if_false, List.cons_append]
          at h ⊢
        exact ih false h
      · simp only [flatParens, stripParens, hc1, hc2, if_false, List.cons_append] at h ⊢
        exact ih true h

theorem mem_stripParens (st : Bool) (X : List Char) (d : Char)
    (h : d ∈ stripParens st X) : d ∈ X := by
  induction X generalizing st with
  | nil => simp [stripParens] at h
  | cons c cs ih =>
    cases st with
    | false =>
      by_cases hc1 : c = '('
      · simp only [stripParens, hc1, if_true] at h
        exact List.mem_cons_of_mem _ (ih true h)
      · simp only [stripParens, hc1, if_false, List.mem_cons] at h
        rcases h with e | e
        · exact e ▸ List.mem_cons_self _ _
        · exact List.mem_cons_of_mem _ (ih false e)
    | true =>
      by_cases hc2 : c = ')'
      · simp only [stripParens, hc2, if_true] at h
        exact List.mem_cons_of_mem _ (ih false h)
      · simp only [stripParens, hc2, if_false] at h
        exact List.mem_cons_of_mem _ (ih true h)

theorem collapseSpaces_append (X Y : List Char) (c : Char) (hc : isSpace c = false) :
    collapseSpaces (X ++ c :: Y) = collapseSpaces X ++ c :: collapseSpaces Y := by
  induction X with
  | nil => simp [collapseSpaces, hc]
  | cons x xs ih =>
    by_cases hx : isSpace x = true
    · cases xs with
      | nil => simp [collapseSpaces, hx, hc]
      | cons d ds =>
        by_cases hd : isSpace d = true
        · have e1 : collapseSpaces (x :: d :: ds ++ c :: Y) =
              collapseSpaces (d :: ds ++ c :: Y) := by
            simp [collapseSpaces, hx, hd]
          have e2 : collapseSpaces (x :: d :: ds) = collapseSpaces (d :: ds) := by
            simp [collapseSpaces, hx, hd]
          rw [e1, e2]
          exact ih
        · have e1 : collapseSpaces (x :: d :: ds ++ c :: Y) =
              ' ' :: collapseSpaces (d :: ds ++ c :: Y) := by
            simp [collapseSpaces, hx, hd]
          have e2 : collapseSpaces (x :: d :: ds) = ' ' :: collapseSpaces (d :: ds) := by
            simp [collapseSpaces, hx, hd]
          rw [e1, e2, ih]
          rfl
    · have hx2 : isSpace x = false := by simpa using hx
      rw [List.cons_append, collapseSpaces_cons_nonspace x _ hx2,
        collapseSpaces_cons_nonspace x _ hx2, ih]
      rfl

theorem mem_collapseSpaces (X : List Char) (d : Char) (h : d ∈ collapseSpaces X) :
    d = ' ' ∨ d ∈ X := by
  induction X with
  | nil => simp [collapseSpaces] at h
  | cons x xs ih =>
    by_cases hx : isSpace x = true
    · cases xs with
      | nil =>
        simp only [collapseSpaces, hx, if_true, List.mem_singleton] at h
        exact Or.inl h
      | cons y ys =>
        by_cases hy : isSpace y = true
        · have e : collapseSpaces (x :: y :: ys) = collapseSpaces (y :: ys) := by
            simp [collapseSpaces, hx, hy]
          rw [e] at h
          rcases ih h with h1 | h1
          · exact Or.inl h1
          · exact Or.inr (List.mem_cons_of_mem _ h1)
        · have e : collapseSpaces (x :: y :: ys) = ' ' :: collapseSpaces (y :: ys) := by
            simp [collapseSpaces, hx, hy]
          rw [e] at h
          rcases List.mem_cons.1 h with h1 | h1
          · exact Or.inl h1
          · rcases ih h1 with h2 | h2
            · exact Or.inl h2
            · exact Or.inr (List.mem_cons_of_mem _ h2)
    · have hx2 : isSpace x = false := by simpa using hx
      rw [collapseSpaces_cons_nonspace x _ hx2] at h
      rcases List.mem_cons.1 h with h1 | h1
      · exact Or.inr (h1 ▸ List.mem_cons_self _ _)
      · rcases ih h1 with h2 | h2
        · exact Or.inl h2
        · exact Or.inr (List.mem_cons_of_mem _ h2)

theorem dropWhile_append_cons (p : Char → Bool) (L R : List Char) (c : Char)
    (hc : p c = false) :
    (L ++ c :: R).dropWhile p = L.dropWhile p ++ c :: R := by
  rw [List.dropWhile_append]
  by_cases h : (L.dropWhile p).isEmpty = true
  · have h2 : L.dropWhile p = [] := by simpa using h
    simp [h2, List.dropWhile_cons, hc]
  · simp [h]

theorem rdropWhile_append_cons (p : Char → Bool) (D R : List Char) (c : Char)
    (hc : p c = false) :
    List.rdropWhile p (D ++ c :: R) = D ++ c :: List.rdropWhile p R := by
  unfold List.rdropWhile
  have e : (D ++ c :: R).reverse = R.reverse ++ c :: D.reverse := by simp
  rw [e, dropWhile_append_cons p _ _ c hc]
  simp

/-- Trimming a text around a character that is not white space. -/
theorem TrimSpace_around (L R : List Char) (c : Char) (hc : isSpace c = false) :
    TrimSpace (L ++ c :: R) = L.dropWhile isSpace ++ c :: List.rdropWhile isSpace R := by
  show List.rdropWhile isSpace ((L ++ c :: R).dropWhile isSpace) = _
  rw [dropWhile_append_cons isSpace L R c hc, rdropWhile_append_cons isSpace _ R c hc]

theorem TrimSpace_dropWhile (L : List Char) :
    TrimSpace (L.dropWhile isSpace) = TrimSpace L := by
  unfold TrimSpace
  rw [List.dropWhile_idempotent]

theorem rdropWhile_decomp (R : List Char) :
    ∃ w : List Char, (∀ c ∈ w, isSpace c = true) ∧ R = List.rdropWhile isSpace R ++ w := by
  refine ⟨(R.reverse.takeWhile isSpace).reverse,
    fun c hc => List.mem_takeWhile_imp (List.mem_reverse.1 hc), ?_⟩
  unfold List.rdropWhile
  rw [← List.reverse_append, List.takeWhile_append_dropWhile, List.reverse_reverse]

theorem TrimSpace_rdropWhile (R : List Char) :
    TrimSpace (List.rdropWhile isSpace R) = TrimSpace R := by
  obtain ⟨w, hw, hR⟩ := rdropWhile_decomp R
  conv_rhs => rw [hR]
  have := TrimSpace_spaces_append [] (List.rdropWhile isSpace R) w (by simp) hw
  simpa using this.symm

/-- Splitting the normal form of `X : Y` at the colon and trimming gives the
normal forms of `X` and of `Y`. -/
theorem SplitN2_normalizeSpaces (X Y : List Char) (hX : ':' ∉ X) :
    ∃ k v, SplitN2 (normalizeSpaces (X ++ ':' :: Y)) ':' = [k, v] ∧
      TrimSpace k = normalizeSpaces X ∧ TrimSpace v = normalizeSpaces Y := by
  have hc : isSpace ':' = false := by decide
  have hnot : ':' ∉ (collapseSpaces X).dropWhile isSpace := by
    intro h
    rcases mem_collapseSpaces X ':' (List.dropWhile_subset _ h) with h1 | h1
    · exact absurd h1 (by decide)
    · exact hX h1
  refine ⟨(collapseSpaces X).dropWhile isSpace, List.rdropWhile isSpace (collapseSpaces Y),
    ?_, TrimSpace_dropWhile _, TrimSpace_rdropWhile _⟩
  unfold normalizeSpaces
  rw [collapseSpaces_append X Y ':' hc, TrimSpace_around _ _ ':' hc]
  simp only [SplitN2, Index_of_split _ _ ':' hnot]
  simp

/-- Without a `:` in the line, both readings give the empty pair. -/
theorem stripThenSplit_no_colon (line : List Char) (h : ':' ∉ line) :
    stripThenSplit line = ([], []) := by
  have hr : ':' ∉ reformat line := by
    intro hmem
    rcases mem_reformat line ':' hmem with h1 | h1
    · exact absurd h1 (by decide)
    · exact h h1
  simp only [stripThenSplit, SplitN2, (Index_eq_none_iff _ ':').2 hr]

/-- With flat balanced parentheses on both sides of the first `:` and at most 100
pairs in the line, both readings give the same pair. -/
theorem stripThenSplit_of_colon (a b : List Char) (ha : ':' ∉ a)
    (hfa : flatParens false a = true) (hfb : flatParens false b = true)
    (hn : (a ++ ':' :: b).count '(' ≤ 100) :
    stripThenSplit (a ++ ':' :: b) = (reformat a, reformat b) := by
  have hcount : (a ++ ':' :: b).count '(' = a.count '(' + b.count '(' := by
    simp [List.count_append, List.count_cons]
  have hfl : flatParens false (a ++ ':' :: b) = true := by
    rw [flatParens_append false a _ hfa]
    simpa [flatParens] using hfb
  have hstrip : stripParens false (a ++ ':' :: b) =
      stripParens false a ++ ':' :: stripParens false b := by
    rw [stripParens_append_flat false a _ hfa]
    simp [stripParens]
  have hX : ':' ∉ stripParens false a := fun h => ha (mem_stripParens false a ':' h)
  obtain ⟨k, v, hsplit, hk, hv⟩ :=
    SplitN2_normalizeSpaces (stripParens false a) (stripParens false b) hX
  rw [reformat_flat a hfa (by omega), reformat_flat b hfb (by omega),
    Join_Fields_eq_normalizeSpaces, Join_Fields_eq_normalizeSpaces]
  unfold stripThenSplit
  rw [reformat_flat _ hfl hn, Join_Fields_eq_normalizeSpaces, hstrip, hsplit]
  simp only [hk, hv]

set_option maxRecDepth 100000 in
/-- C16, as stated, fails: `getKeyValue` splits at the first `:` before it strips
the parentheticals, so on `"Speed (max: turbo): 3 GHz"` the `:` inside the
parenthetical is the separator, while strip then split gives `("Speed", "3 GHz")`. -/
theorem getKeyValue_splits_first :
    getKeyValue "Speed (max: turbo): 3 GHz".toList ":".toList =
      ("Speed (max".toList, "turbo): 3 GHz".toList) ∧
    stripThenSplit "Speed (max: turbo): 3 GHz".toList = ("Speed".toList, "3 GHz".toList) := by
  decide

/-- C16, amended: for every line in which the parentheses of the part before the
first `:` and of the part after it form balanced pairs that are not nested (so
the first `:` stands outside every parenthetical), at most 100 pairs in the line,
`getKeyValue` equals strip then split: the parentheticals removed from the whole
line and the spaces collapsed, then the split at the first `:` and the trim. -/
theorem getKeyValue_eq_stripThenSplit (line : List Char)
    (hflat : ∀ p ∈ SplitN2 line ':', flatParens false p = true)
    (hn : line.count '(' ≤ 100) :
    getKeyValue line ":".toList = stripThenSplit line := by
  cases hi : Index line ':' with
  | none =>
    have h := (Index_eq_none_iff line ':').1 hi
    rw [getKeyValue_no_colon line _ h, stripThenSplit_no_colon line h]
  | some k =>
    obtain ⟨hnot, hline⟩ := Index_split line ':' k hi
    have hsplit : SplitN2 line ':' = [line.take k, line.drop (k + 1)] := by
      simp [SplitN2, hi]
    have hfa := hflat (line.take k) (by simp [hsplit])
    have hfb := hflat (line.drop (k + 1)) (by simp [hsplit])
    generalize line.take k = a at hnot hline hfa
    generalize line.drop (k + 1) = b at hline hfb
    subst hline
    rw [getKeyValue_of_colon a b _ hnot, stripThenSplit_of_colon a b hnot hfa hfb hn]

set_option maxRecDepth 100000 in
/-- C16, amended, at a line with a `:` inside a parenthetical of the value. -/
theorem getKeyValue_eq_stripThenSplit_witness :
    getKeyValue "Size (max): 4096 MB (No ECC: x)".toList ":".toList =
      stripThenSplit "Size (max): 4096 MB (No ECC: x)".toList ∧
    stripThenSplit "Size (max): 4096 MB (No ECC: x)".toList =
      ("Size".toList, "4096 MB".toList) :=
  ⟨getKeyValue_eq_stripThenSplit "Size (max): 4096 MB (No ECC: x)".toList (by decide)
    (by decide), by decide⟩

/-! ### The per-processor pass of `ListCPUInfo` -/

set_option maxRecDepth 100000 in
/-- C18 fails in the code: a `Size`, `Type`, `Form Factor`, `Speed` or `Locator`
line that comes before the first `Memory Device` line makes the module loop of
`ReadRAMInfo` write (for `Speed`, read) a field through the nil `module`, which
is a panic, whatever `fmt.Sscan` does; with the `Memory Device` line first the
same field line gives a module. -/
theorem moduleLoop_nil_module (Sscan : List Char → Option Int) :
    moduleLoop Sscan ["\tSize: 4096 MB".toList] = Outcome.panicked ∧
    moduleLoop Sscan ["\tSize: No Module Installed".toList] = Outcome.panicked ∧
    moduleLoop Sscan ["\tType: DDR4".toList] = Outcome.panicked ∧
    moduleLoop Sscan ["\tForm Factor: DIMM".toList] = Outcome.panicked ∧
    moduleLoop Sscan ["\tSpeed: 2400 MHz".toList] = Outcome.panicked ∧
    moduleLoop Sscan ["\tLocator: DIMM_A1".toList] = Outcome.panicked ∧
    moduleLoop Sscan ["Memory Device".toList, "\tType: DDR4".toList] =
      Outcome.ok [{ RAMModule.empty with Class := "DDR4".toList }] :=
  ⟨rfl, rfl, rfl, rfl, rfl, rfl, rfl⟩

/-! ### A `)` before the first `(` -/

theorem Fields_word (w : List Char) (hw : ∀ c ∈ w, isSpace c = false) (hne : w ≠ []) :
    Fields w = [w] := by
  have h := fieldsAux_word [] w [] hw
  rw [List.append_nil, List.append_nil] at h
  have hr : w.reverse ≠ [] := fun e => hne (List.reverse_eq_nil_iff.1 e)
  rw [Fields, h]
  simp only [fieldsAux, hr, if_false, List.reverse_reverse]

/-- One pass on `)x…x(` with `m` letters: `i` is the index of the `(` at the end,
`j = 0`, and `str[:i] + str[j+1:]` holds the letters twice. -/
theorem reformatLoop_pass_grows (n m : Nat) :
    reformatLoop (n + 1) (')' :: (List.replicate m 'x' ++ ['('])) =
      reformatLoop n (')' :: (List.replicate (m + m) 'x' ++ ['('])) := by
  have hi : Index (')' :: (List.replicate m 'x' ++ ['('])) '(' = some (m + 1) := by
    have h := Index_of_split (')' :: List.replicate m 'x') [] '('
      (by simp [List.mem_replicate])
    simpa using h
  have hj : Index (')' :: (List.replicate m 'x' ++ ['('])) ')' = some 0 := by
    simp [Index]
  have ht : (')' :: (List.replicate m 'x' ++ ['('])).take (m + 1) =
      ')' :: List.replicate m 'x' := by
    rw [List.take_succ_cons, List.take_left' (by simp)]
  have hd : (')' :: (List.replicate m 'x' ++ ['('])).drop (0 + 1) =
      List.replicate m 'x' ++ ['('] := rfl
  have hcat : ')' :: List.replicate m 'x' ++ (List.replicate m 'x' ++ ['(']) =
      ')' :: (List.replicate (m + m) 'x' ++ ['(']) := by
    rw [List.cons_append, ← List.append_assoc, List.append_replicate_replicate]
  have htrim : TrimSpace (')' :: (List.replicate (m + m) 'x' ++ ['('])) =
      ')' :: (List.replicate (m + m) 'x' ++ ['(']) :=
    byteunit.TrimSpace_eq_self _ (by simp [isSpace])
      (by
        rw [← List.cons_append, List.getLast?_append]
        simp [isSpace])
  simp only [reformatLoop, hi, hj]
  rw [ht, hd, hcat, htrim]

theorem reformatLoop_doubles (n m : Nat) :
    reformatLoop n (')' :: (List.replicate m 'x' ++ ['('])) =
      ')' :: (List.replicate (m * 2 ^ n) 'x' ++ ['(']) := by
  induction n generalizing m with
  | zero => simp [reformatLoop]
  | succ k ih =>
    rw [reformatLoop_pass_grows, ih (m + m)]
    have e : (m + m) * 2 ^ k = m * 2 ^ (k + 1) := by ring
    rw [e]

theorem reformat_doubles (m : Nat) :
    reformat (')' :: (List.replicate m 'x' ++ ['('])) =
      ')' :: (List.replicate (m * 2 ^ 100) 'x' ++ ['(']) := by
  rw [reformat, reformatLoop_doubles, Fields_word _ _ (by simp)]
  · rfl
  · intro c hc
    simp only [List.mem_cons, List.mem_append, List.mem_replicate, List.mem_singleton,
      List.not_mem_nil, or_false] at hc
    rcases hc with h | ⟨_, h⟩ | h <;> subst h <;> rfl

/-- C19 fails in the code: on `")x("` the first `)` stands before the first `(`,
so `str[:i] + str[j+1:]` repeats the text between them: one pass turns `")x("`
into `")xx("`, and `reformat` returns `)`, `2 ^ 100` letters `x`, and `(`, which
is longer than the three characters it was given. -/
theorem reformat_grows :
    reformatLoop 1 ")x(".toList = ")xx(".toList ∧
    reformat ")x(".toList = ')' :: (List.replicate (2 ^ 100) 'x' ++ ['(']) ∧
    ")x(".toList.length < (reformat ")x(".toList).length := by
  have h : reformat ")x(".toList = ')' :: (List.replicate (2 ^ 100) 'x' ++ ['(']) := by
    have h1 := reformat_doubles 1
    rw [Nat.one_mul] at h1
    exact h1
  refine ⟨by decide, h, ?_⟩
  rw [h, List.length_cons, List.length_append, List.length_replicate]
  have h2 : 1 ≤ 2 ^ 100 := Nat.one_le_two_pow
  have h3 : ")x(".toList.length = 3 := rfl
  have h4 : ['('].length = 1 := rfl
  omega

end hwinfo
